import Mathlib

/-!
Shallow embedding of `pmd_beamphysics/particles.py` (openPMD-beamphysics).

Numeric model: the canonical per-particle arrays are lists over an ordered
field. The store-level operations (construction, split, join, resample,
subsetting, covariance) are modelled over `ℚ`, which is exact for all the
field operations the code performs; the kinematic layer (drift, beta_z,
average_current) needs square roots and is modelled over `ℝ`.
IEEE-float rounding is not modelled: every claim below is about structural
and algebraic behaviour, not rounding.

Python-semantics notes kept throughout as comments:
  - `full_data` classifies a value as scalar when `np.isscalar(v)` holds or
    `len(v) == 1`; every *other* sequence (length 0 or length >= 2) is an
    array.  Broadcasting a scalar over a common length 0 yields an empty
    array; broadcasting the scalar species string over length 0 yields an
    empty numpy string array, and `ParticleGroup.__init__` then leaves that
    empty array as the `species` attribute (the `len(species) >= 1` fix-up
    is skipped).  `SpeciesVal.emptyArr` models that state.
  - `x / 0` on rationals/reals is `0` in Lean where numpy would produce
    `inf`/`nan` or raise; no claim below depends on the value of such a
    division.
-/

/-- Species attribute of a particle group.  `str s` is the normal state (a
Python string).  `emptyArr` models the empty numpy string array that
`ParticleGroup.__init__` leaves behind when the canonical arrays have
length 0 (see module comment). -/
inductive SpeciesVal where
  | str (s : String)
  | emptyArr
deriving DecidableEq, Repr

/-- The canonical store of `ParticleGroup`: the nine required per-particle
arrays plus the species attribute.  The optional `id` array is not modelled
(no claim involves it).  `α` is `ℚ` for store-level operations and `ℝ` for
the kinematic layer. -/
structure PGen (α : Type) where
  x : List α
  px : List α
  y : List α
  py : List α
  z : List α
  pz : List α
  t : List α
  status : List α
  weight : List α
  species : SpeciesVal
deriving DecidableEq, Repr

/-- `len(self)` is the length of the first settable array, which is `x`. -/
def PGen.nPart {α : Type} (pg : PGen α) : ℕ := pg.x.length

/-- The nine canonical arrays, in the order of `_settable_array_keys`. -/
def PGen.fields {α : Type} (pg : PGen α) : List (List α) :=
  [pg.x, pg.px, pg.y, pg.py, pg.z, pg.pz, pg.t, pg.status, pg.weight]

/-- Well-formedness: all canonical arrays share one length, and the species
attribute is a string exactly when the ensemble is non-empty (this is the
state every constructor path of the code establishes). -/
def PGen.WF {α : Type} (pg : PGen α) : Prop :=
  pg.px.length = pg.x.length ∧ pg.y.length = pg.x.length ∧
  pg.py.length = pg.x.length ∧ pg.z.length = pg.x.length ∧
  pg.pz.length = pg.x.length ∧ pg.t.length = pg.x.length ∧
  pg.status.length = pg.x.length ∧ pg.weight.length = pg.x.length ∧
  (if pg.x.length = 0 then pg.species = SpeciesVal.emptyArr
   else pg.species ≠ SpeciesVal.emptyArr)

instance {α : Type} (pg : PGen α) : Decidable pg.WF := by
  unfold PGen.WF; infer_instance

/-- Raw keyed data handed to `ParticleGroup(data=...)` by `split_particles`,
`resample`, `particle_parts` and `join_particle_groups`: the nine array
values plus the species value. -/
structure RawData (α : Type) where
  x : List α
  px : List α
  y : List α
  py : List α
  z : List α
  pz : List α
  t : List α
  status : List α
  weight : List α
  species : SpeciesVal

/-- The nine array values of a raw data mapping. -/
def RawData.fields {α : Type} (d : RawData α) : List (List α) :=
  [d.x, d.px, d.y, d.py, d.z, d.pz, d.t, d.status, d.weight]

/-- Broadcast of `full_data`: a length-1 value is a scalar and is filled out
to the common length with `np.full`; anything else is passed through. -/
def bcast {α : Type} (n : ℕ) : List α → List α
  | [a] => List.replicate n a
  | l => l

/-- Embedding of `ParticleGroup.__init__(data=...)` (the `full_data` call
followed by the species fix-up), specialised to the raw-data shape used by
all in-module constructors: nine array values and one species value.
Mirrors `full_data`: values of length 1 are scalars; all other values are
arrays and must share one length (`assert`, else construction fails); the
scalar species string broadcasts to `np.full(n, s)`, which
`__init__` reduces back to the string `s` when `n >= 1` and leaves as an
empty array when `n = 0`.  A species that is already an empty array is a
length-0 array value and so participates in the length check itself. -/
def mkPG {α : Type} (d : RawData α) : Option (PGen α) :=
  match d.species with
  | SpeciesVal.str s =>
    match d.fields.filter (fun l => l.length ≠ 1) with
    | [] =>
      -- zero arrays: every scalar becomes a length-1 array
      some ⟨d.x, d.px, d.y, d.py, d.z, d.pz, d.t, d.status, d.weight,
            SpeciesVal.str s⟩
    | a :: rest =>
      if rest.all (fun l => l.length = a.length) then
        let n := a.length
        some ⟨bcast n d.x, bcast n d.px, bcast n d.y, bcast n d.py,
              bcast n d.z, bcast n d.pz, bcast n d.t, bcast n d.status,
              bcast n d.weight,
              if n = 0 then SpeciesVal.emptyArr else SpeciesVal.str s⟩
      else none
  | SpeciesVal.emptyArr =>
    -- the species value is itself a length-0 array, so every true array
    -- must have length 0 as well; scalars broadcast to length 0
    if d.fields.all (fun l => l.length = 1 ∨ l.length = 0) then
      some ⟨bcast 0 d.x, bcast 0 d.px, bcast 0 d.y, bcast 0 d.py,
            bcast 0 d.z, bcast 0 d.pz, bcast 0 d.t, bcast 0 d.status,
            bcast 0 d.weight, SpeciesVal.emptyArr⟩
    else none

section Stats

variable {F : Type} [LinearOrderedField F]

/-- Embedding of `np.average(v, weights=w)`: the weighted mean.
(numpy raises when the weights sum to zero; here the division is the
field's total division.) -/
def avgW (v w : List F) : F := (List.zipWith (· * ·) w v).sum / w.sum

/-- Minimum of a list (`np.min`); numpy raises on an empty array, modelled
as the junk value 0. -/
def minD : List F → F
  | [] => 0
  | a :: l => l.foldl min a

/-- Maximum of a list (`np.max`); numpy raises on an empty array, modelled
as the junk value 0. -/
def maxD : List F → F
  | [] => 0
  | a :: l => l.foldl max a

/-- Embedding of `np.ptp`: peak-to-peak, max minus min. -/
def ptpL (v : List F) : F := maxD v - minD v

end Stats

/-- Outcome of one entry of `np.cov(rows, aweights=w)`:
  - `err`: numpy raises — `ValueError("aweights cannot be negative")`
    when any weight is negative (validated before anything else), or
    `ZeroDivisionError` inside `np.average` when the weights sum to zero;
  - `nan`: the normalisation factor `fact = v1 - v2/v1` is non-positive
    (e.g. a single particle): numpy warns "Degrees of freedom <= 0",
    clamps `fact` to 0 and the division makes every entry nan;
  - `val v`: the returned finite entry. -/
inductive CovRes (F : Type) where
  | err
  | nan
  | val (v : F)
deriving DecidableEq, Repr

/-- Extract a numeric value from a covariance entry, with 0 standing in
for the error/nan outcomes (used only by the spec-modelled normalization
quantities, whose values no claim depends on). -/
def CovRes.toVal {F : Type} [Zero F] : CovRes F → F
  | CovRes.val v => v
  | _ => 0

section CovDef

variable {F : Type} [LinearOrderedField F]

/-- Embedding of `np.cov(rows, aweights=w)` (default `ddof = 1`), entry
`(i, j)`: numpy first validates the aweights (any negative entry raises
`ValueError("aweights cannot be negative")`), then computes the weighted
means (`np.average` raises when the weights sum to zero); the
normalisation factor is `fact = v1 - v2/v1` with `v1 = Σ w`,
`v2 = Σ w²`; when `fact <= 0` numpy warns and every entry becomes nan,
otherwise the entry is
`Σ_k w_k·(ri_k - avg ri)·(rj_k - avg rj) / fact`. -/
def covW (rows : List (List F)) (w : List F) (i j : ℕ) : CovRes F :=
  if ¬ (∀ a ∈ w, 0 ≤ a) then CovRes.err
  else if w.sum = 0 then CovRes.err
  else
    let v1 := w.sum
    let v2 := (w.map (fun a => a * a)).sum
    let fact0 := v1 - v2 / v1
    if fact0 ≤ 0 then CovRes.nan
    else
      let ri := rows.getD i []
      let rj := rows.getD j []
      let di := ri.map (fun a => a - avgW ri w)
      let dj := rj.map (fun a => a - avgW rj w)
      CovRes.val
        ((List.zipWith (· * ·) w (List.zipWith (· * ·) di dj)).sum / fact0)

end CovDef

/-- The canonical array names accepted by the statistics and splitting
machinery at the `ℚ` level. -/
inductive CanKey where
  | x | px | y | py | z | pz | t | status | weight
deriving DecidableEq, Repr

/-- `getattr` for a canonical array name. -/
def PGen.canArr {α : Type} (pg : PGen α) : CanKey → List α
  | CanKey.x => pg.x
  | CanKey.px => pg.px
  | CanKey.y => pg.y
  | CanKey.py => pg.py
  | CanKey.z => pg.z
  | CanKey.pz => pg.pz
  | CanKey.t => pg.t
  | CanKey.status => pg.status
  | CanKey.weight => pg.weight

/-- Embedding of `ParticleGroup.cov(*keys)` for canonical array keys:
`np.cov` of the row-stacked arrays with `aweights = weight`. -/
def PGcovQ (pg : PGen ℚ) (keys : List CanKey) (i j : ℕ) : CovRes ℚ :=
  covW (keys.map pg.canArr) pg.weight i j

/-- The comparison used to model `np.argsort` on the key array: sort
indices by value, breaking ties by index (a stable argsort; numpy's
default quicksort is also a sorting permutation, just with unspecified
tie order). -/
def argLe (v : List ℚ) (i j : ℕ) : Bool :=
  decide (v.getD i 0 < v.getD j 0) ||
    (decide (v.getD i 0 = v.getD j 0) && decide (i ≤ j))

/-- Embedding of `np.argsort(v)`: a permutation of `range v.length` that
sorts `v`. -/
def argsortL (v : List ℚ) : List ℕ :=
  List.mergeSort (List.range v.length) (argLe v)

/-- Chunk sizes of `np.array_split(arr, k)` for an array of length `l`:
the first `l % k` chunks have size `l / k + 1`, the rest size `l / k`. -/
def npSplitSizes (l k : ℕ) : List ℕ :=
  List.replicate (l % k) (l / k + 1) ++ List.replicate (k - l % k) (l / k)

/-- Split a list into consecutive chunks of the given sizes. -/
def splitSizes {α : Type} : List ℕ → List α → List (List α)
  | [], _ => []
  | s :: rest, l => l.take s :: splitSizes rest (l.drop s)

/-- The chunk index lists of `split_particles`: the argsorted indices of
the named key array, split into `k` near-equal contiguous chunks. -/
def chunkIdxs (pg : PGen ℚ) (k : ℕ) (key : CanKey) : List (List ℕ) :=
  splitSizes (npSplitSizes (pg.canArr key).length k) (argsortL (pg.canArr key))

/-- The raw data dictionary built inside the `split_particles` loop (and by
`resample`): every settable array indexed by the chunk's index list, plus
the parent's species value. -/
def subgroupData (pg : PGen ℚ) (ix : List ℕ) : RawData ℚ :=
  ⟨ix.map (pg.x.getD · 0), ix.map (pg.px.getD · 0), ix.map (pg.y.getD · 0),
   ix.map (pg.py.getD · 0), ix.map (pg.z.getD · 0), ix.map (pg.pz.getD · 0),
   ix.map (pg.t.getD · 0), ix.map (pg.status.getD · 0),
   ix.map (pg.weight.getD · 0), pg.species⟩

/-- Embedding of `split_particles(particle_group, n_chunks, key)`:
argsort by the key array, `np.array_split` the index list into `n_chunks`
chunks, and construct a new `ParticleGroup` from each chunk.
`np.array_split` raises for `n_chunks = 0` (modelled as `none`). -/
def splitParticles (pg : PGen ℚ) (k : ℕ) (key : CanKey) :
    Option (List (PGen ℚ)) :=
  if k = 0 then none
  else (chunkIdxs pg k key).mapM (fun ix => mkPG (subgroupData pg ix))

/-- Embedding of `join_particle_groups(*particle_groups)`: check all
species equal the first group's species (note `spe == species0` is falsy
in Python whenever either side is the empty species array), then
concatenate every settable array and construct a new group.  An empty
argument list raises `IndexError` (modelled as `none`). -/
def joinPGs (pgs : List (PGen ℚ)) : Option (PGen ℚ) :=
  match pgs with
  | [] => none
  | p0 :: _ =>
    match p0.species with
    | SpeciesVal.emptyArr => none
    | SpeciesVal.str s =>
      if pgs.all (fun p => decide (p.species = SpeciesVal.str s)) then
        mkPG ⟨(pgs.map (·.x)).flatten, (pgs.map (·.px)).flatten,
              (pgs.map (·.y)).flatten, (pgs.map (·.py)).flatten,
              (pgs.map (·.z)).flatten, (pgs.map (·.pz)).flatten,
              (pgs.map (·.t)).flatten, (pgs.map (·.status)).flatten,
              (pgs.map (·.weight)).flatten, SpeciesVal.str s⟩
      else none

/-- Embedding of `resample(particle_group, n)`.  The random index list of
`np.random.choice(n_old, n, replace=False)` is passed in as a parameter
`ix` (the theorems quantify over any valid draw).  Failure modes in code
order: `assert n <= n_old`; `assert len(set(weight)) == 1` (so an empty
ensemble always fails); and `n_old/n` raises `ZeroDivisionError` when
`n = 0`.  The weight of the indexed copy is rescaled by `n_old/n`. -/
def resamplePG (pg : PGen ℚ) (n : ℕ) (ix : List ℕ) : Option (PGen ℚ) :=
  if ¬ n ≤ pg.nPart then none
  else if pg.weight.dedup.length ≠ 1 then none
  else if n = 0 then none
  else
    mkPG ⟨ix.map (pg.x.getD · 0), ix.map (pg.px.getD · 0),
          ix.map (pg.y.getD · 0), ix.map (pg.py.getD · 0),
          ix.map (pg.z.getD · 0), ix.map (pg.pz.getD · 0),
          ix.map (pg.t.getD · 0), ix.map (pg.status.getD · 0),
          ix.map (fun i => pg.weight.getD i 0 * ((pg.nPart : ℚ) / (n : ℚ))),
          pg.species⟩

/-- Embedding of `particle_parts(particle_group, i)` for a single integer
index: every settable array is indexed at `i` (a scalar), the species is
carried over, and a new group is constructed (the scalars broadcast to a
single-particle ensemble).  An out-of-range index raises `IndexError`
(modelled as `none`). -/
def particlePartsIdx (pg : PGen ℚ) (i : ℕ) : Option (PGen ℚ) :=
  if pg.fields.all (fun l => i < l.length) then
    mkPG ⟨[pg.x.getD i 0], [pg.px.getD i 0], [pg.y.getD i 0],
          [pg.py.getD i 0], [pg.z.getD i 0], [pg.pz.getD i 0],
          [pg.t.getD i 0], [pg.status.getD i 0], [pg.weight.getD i 0],
          pg.species⟩
  else none

/-- A raw value of a keyed data mapping, as classified by `full_data`:
either a Python scalar or a sequence. -/
inductive PyVal where
  | scalar (q : ℚ)
  | arr (l : List ℚ)
deriving DecidableEq, Repr

/-- `full_data`'s scalar test: `np.isscalar(v) or len(v) == 1`. -/
def isScalarLike : PyVal → Bool
  | PyVal.scalar _ => true
  | PyVal.arr l => l.length == 1

/-- Length of a sequence value (unused for scalars). -/
def pyLen : PyVal → ℕ
  | PyVal.scalar _ => 0
  | PyVal.arr l => l.length

/-- The scalar extracted by `full_data` from a scalar-like value
(`v` itself, or `v[0]` for a length-1 sequence). -/
def scalarVal : PyVal → ℚ
  | PyVal.scalar q => q
  | PyVal.arr l => l.headD 0

/-- The array value of an array-like entry. -/
def arrVal : PyVal → List ℚ
  | PyVal.scalar q => [q]
  | PyVal.arr l => l

/-- Embedding of `full_data(data)` on a keyed mapping: partition entries
into scalars (Python scalars and length-1 sequences) and arrays (all other
sequences); with zero arrays every scalar becomes a length-1 array; else
all arrays must share one length (`assert`, modelled as `none`) and the
scalars are broadcast to that length and appended after the arrays. -/
def fullData (d : List (String × PyVal)) : Option (List (String × List ℚ)) :=
  let scals := d.filter (fun kv => isScalarLike kv.2)
  match d.filter (fun kv => ! isScalarLike kv.2) with
  | [] => some (scals.map (fun kv => (kv.1, [scalarVal kv.2])))
  | a :: rest =>
    if (a :: rest).all (fun kv => pyLen kv.2 = pyLen a.2) then
      some ((a :: rest).map (fun kv => (kv.1, arrVal kv.2)) ++
        scals.map (fun kv => (kv.1, List.replicate (pyLen a.2) (scalarVal kv.2))))
    else none

/-- `c_light = 299792458.` (module constant, in m/s). -/
def c_light : ℚ := 299792458

/-- `mass_of = {'electron': 0.51099895000e6}` in eV; looking up any other
species raises `KeyError`, modelled as `none`. -/
def massOf : SpeciesVal → Option ℚ
  | SpeciesVal.str "electron" => some (51099895 / 100)
  | _ => none

/-- `scipy.constants.e = 1.602176634e-19` (exact SI value). -/
def e_charge : ℚ := 1602176634 / 10 ^ 28

/-- `charge_of = {'electron': e_charge, 'positron': -e_charge}`; any other
species raises `KeyError`, modelled as `none`. -/
def chargeOf : SpeciesVal → Option ℚ
  | SpeciesVal.str "electron" => some e_charge
  | SpeciesVal.str "positron" => some (-e_charge)
  | _ => none

/-- Coerce a rational-array group into the real-valued kinematic layer. -/
def PGen.toR (pg : PGen ℚ) : PGen ℝ :=
  ⟨pg.x.map (fun a => (a : ℝ)), pg.px.map (fun a => (a : ℝ)),
   pg.y.map (fun a => (a : ℝ)), pg.py.map (fun a => (a : ℝ)),
   pg.z.map (fun a => (a : ℝ)), pg.pz.map (fun a => (a : ℝ)),
   pg.t.map (fun a => (a : ℝ)), pg.status.map (fun a => (a : ℝ)),
   pg.weight.map (fun a => (a : ℝ)), pg.species⟩

/-- Per-particle total energy `sqrt(px² + py² + pz² + mass²)` in eV. -/
noncomputable def energyArr (pg : PGen ℝ) (m : ℝ) : List ℝ :=
  List.zipWith (fun a pz => Real.sqrt (a + pz * pz + m * m))
    (List.zipWith (fun px py => px * px + py * py) pg.px pg.py) pg.pz

/-- Per-particle `beta_x = px/energy`. -/
noncomputable def betaXArr (pg : PGen ℝ) (m : ℝ) : List ℝ :=
  List.zipWith (fun p e => p / e) pg.px (energyArr pg m)

/-- Per-particle `beta_y = py/energy`. -/
noncomputable def betaYArr (pg : PGen ℝ) (m : ℝ) : List ℝ :=
  List.zipWith (fun p e => p / e) pg.py (energyArr pg m)

/-- Per-particle `beta_z = pz/energy`. -/
noncomputable def betaZArr (pg : PGen ℝ) (m : ℝ) : List ℝ :=
  List.zipWith (fun p e => p / e) pg.pz (energyArr pg m)

/-- Embedding of `ParticleGroup.drift(delta_t)` (with the rest mass already
looked up): `x += beta_x*c*Δt` and likewise for y, z; `t += Δt`. -/
noncomputable def driftPG (pg : PGen ℝ) (m : ℝ) (dt : List ℝ) : PGen ℝ :=
  { pg with
    x := List.zipWith (· + ·) pg.x
      (List.zipWith (fun b d => b * (c_light : ℝ) * d) (betaXArr pg m) dt)
    y := List.zipWith (· + ·) pg.y
      (List.zipWith (fun b d => b * (c_light : ℝ) * d) (betaYArr pg m) dt)
    z := List.zipWith (· + ·) pg.z
      (List.zipWith (fun b d => b * (c_light : ℝ) * d) (betaZArr pg m) dt)
    t := List.zipWith (· + ·) pg.t dt }

/-- Embedding of `ParticleGroup.drift_to_t(t)`.  Python reads
`if not t: t = self.avg('t')`, so a target of `None` *or of exactly 0*
is replaced by the weighted mean time.  Then each particle is drifted by
`Δt_i = target - t_i`, and finally `t` is overwritten with
`np.full(n_particle, target)`.  The rest-mass lookup inside `drift`
raises for a species outside the mass table (modelled as `none`). -/
noncomputable def driftToT (pg : PGen ℝ) (t? : Option ℝ) : Option (PGen ℝ) :=
  (massOf pg.species).map (fun m =>
    let target : ℝ :=
      match t? with
      | none => avgW pg.t pg.weight
      | some v => if v = 0 then avgW pg.t pg.weight else v
    let dt := pg.t.map (fun ti => target - ti)
    let pg2 := driftPG pg (m : ℝ) dt
    { pg2 with t := List.replicate pg.nPart target })

/-- Embedding of `ParticleGroup.average_current`: `charge / dt` with
`dt = t.ptp()`; when that is exactly zero, `dt` is replaced by
`z.ptp() / (avg('beta_z') * c_light)`.  The fallback branch evaluates
`beta_z` and hence the rest mass, whose lookup can raise (`none`). -/
noncomputable def averageCurrent (pg : PGen ℝ) : Option ℝ :=
  let dt := ptpL pg.t
  if dt = 0 then
    (massOf pg.species).map (fun m =>
      pg.weight.sum /
        (ptpL pg.z / (avgW (betaZArr pg (m : ℝ)) pg.weight * (c_light : ℝ))))
  else some (pg.weight.sum / dt)

/-- Per-particle total momentum `sqrt(px² + py² + pz²)`. -/
noncomputable def pArr (pg : PGen ℝ) : List ℝ :=
  List.zipWith (fun a pz => Real.sqrt (a + pz * pz))
    (List.zipWith (fun px py => px * px + py * py) pg.px pg.py) pg.pz

/-- Per-particle `theta = np.arctan2(y, x)`, via the complex argument. -/
noncomputable def thetaArr (pg : PGen ℝ) : List ℝ :=
  List.zipWith (fun a b => Complex.arg ⟨a, b⟩) pg.x pg.y

/-- `self.std(key)`: square root of the weighted mean squared deviation. -/
noncomputable def stdWtd (v w : List ℝ) : ℝ :=
  Real.sqrt (avgW (v.map (fun a => (a - avgW v w) ^ 2)) w)

/-- Modelled from the spec: the 2×2 charge-weighted covariance matrix of a
position coordinate and its mass-normalized momentum, reduced to Twiss
parameters.  The normalization routine itself
(`statistics.normalized_particle_coordinate`) is not part of this module's
source; the spec describes coordinates produced from the 2×2 covariance so
that the charge-weighted mean of `J = (x̄² + p̄x²)/2` is the normalized
emittance.  Returns (emittance, twiss beta, twiss alpha). -/
noncomputable def twissOf (u v w : List ℝ) : ℝ × ℝ × ℝ :=
  let s00 := (covW [u, v] w 0 0).toVal
  let s01 := (covW [u, v] w 0 1).toVal
  let s11 := (covW [u, v] w 1 1).toVal
  let emit := Real.sqrt (s00 * s11 - s01 * s01)
  (emit, s00 / emit, -s01 / emit)

/-- Modelled from the spec: normalized position coordinate `x̄ = x/√β`. -/
noncomputable def normBarPos (u v w : List ℝ) : List ℝ :=
  u.map (fun a => a / Real.sqrt (twissOf u v w).2.1)

/-- Modelled from the spec: normalized momentum coordinate
`p̄ = α·x/√β + √β·x′`. -/
noncomputable def normBarMom (u v w : List ℝ) : List ℝ :=
  List.zipWith
    (fun a b =>
      (twissOf u v w).2.2 * a / Real.sqrt (twissOf u v w).2.1 +
        Real.sqrt (twissOf u v w).2.1 * b) u v

/-- Modelled from the spec: the single-particle action
`J = (x̄² + p̄²)/2`. -/
noncomputable def ampJ (u v w : List ℝ) : List ℝ :=
  List.zipWith (fun a b => (a * a + b * b) / 2)
    (normBarPos u v w) (normBarMom u v w)

/-- Modelled from the spec: the 2D normalized emittance
`sqrt(det cov(x, px/mass))` (the external `statistics.norm_emit_calc`). -/
noncomputable def normEmit2 (u v w : List ℝ) : ℝ := (twissOf u v w).1

/-- Modelled from the spec: the 4D normalized emittance, the square root
of the determinant of the 4×4 charge-weighted covariance matrix of
`(x, px/mass, y, py/mass)`. -/
noncomputable def normEmit4 (pg : PGen ℝ) (m : ℝ) : ℝ :=
  Real.sqrt ((Matrix.of (fun i j : Fin 4 =>
    (covW [pg.x, pg.px.map (fun a => a / m), pg.y, pg.py.map (fun a => a / m)]
      pg.weight i.val j.val).toVal)).det)

/-- Evaluate a degree-2 polynomial with coefficient vector `c` (constant
term first, as `np.polynomial.polyval`). -/
noncomputable def polyval2 (c : Fin 3 → ℝ) (a : ℝ) : ℝ :=
  c 0 + c 1 * a + c 2 * (a * a)

/-- Modelled from the spec: least-squares degree-2 fit of `es` against
`ts` (`np.polynomial.polyfit(t, energy, 2)`), via the normal equations. -/
noncomputable def polyfit2 (ts es : List ℝ) : Fin 3 → ℝ :=
  let s : ℕ → ℝ := fun k => (ts.map (fun a => a ^ k)).sum
  let b : ℕ → ℝ := fun k => (List.zipWith (fun a e => a ^ k * e) ts es).sum
  (!![s 0, s 1, s 2; s 1, s 2, s 3; s 2, s 3, s 4] : Matrix (Fin 3) (Fin 3) ℝ)⁻¹.mulVec
    ![b 0, b 1, b 2]

/-- `np.std`: unweighted population standard deviation. -/
noncomputable def stdU (l : List ℝ) : ℝ :=
  Real.sqrt ((l.map (fun a => (a - l.sum / l.length) ^ 2)).sum / l.length)

/-- Embedding of `higher_order_energy_spread` (the polynomial fit itself is
modelled from the spec, see `polyfit2`): pick `t` when the weighted std of
`z` is below `1e-12`, else `z/c`; fit energy quadratically against it and
return the unweighted std of the residual. -/
noncomputable def hoeSpread (pg : PGen ℝ) (m : ℝ) : ℝ :=
  let tcoord :=
    if stdWtd pg.z pg.weight < 1 / 10 ^ 12 then pg.t
    else pg.z.map (fun a => a / (c_light : ℝ))
  let es := energyArr pg m
  let c := polyfit2 tcoord es
  stdU (List.zipWith (fun e a => e - polyval2 c a) es tcoord)

/-- A value produced by attribute lookup on a particle group: a rational
or real array, a rational or real scalar, the species value, one of the
internal key-name lists, or a bound method object. -/
inductive AttrVal where
  | qarr (l : List ℚ)
  | rarr (l : List ℝ)
  | qscalar (q : ℚ)
  | rscalar (r : ℝ)
  | nanScalar
  | sval (v : SpeciesVal)
  | strList (l : List String)
  | method (name : String)

/-- Result of `__getitem__`: a value, or one of the fatal error classes
(`AssertionError` from the covariance-key assert, `AttributeError` from
`getattr`, and any other raising path such as `KeyError` from the species
tables or `TypeError`/`ValueError` inside numpy). -/
inductive GetRes where
  | ok (v : AttrVal)
  | assertErr
  | attrErr
  | otherErr

/-- Names of the methods defined on `ParticleGroup`; `getattr` returns a
bound method object for these rather than raising. -/
def methodNames : List String :=
  ["assign_id", "units", "delta", "min", "max", "ptp", "avg", "std", "cov",
   "write_astra", "write_bmad", "write_elegant", "write_genesis2_beam_file",
   "write_genesis4_distribution", "write_gpt", "write_impact", "write_opal",
   "write", "plot", "split", "copy", "resample", "drift", "drift_to_z",
   "drift_to_t", "where", "_sort"]

/-- Run a computation needing the rest mass; a species outside the mass
table raises `KeyError` (`otherErr`). -/
noncomputable def withMass (pg : PGen ℚ) (f : ℝ → GetRes) : GetRes :=
  match massOf pg.species with
  | some m => f ((m : ℚ) : ℝ)
  | none => GetRes.otherErr

/-- Embedding of `getattr(self, key)` over the attribute surface of
`ParticleGroup`: the canonical stored arrays, `species`, the internal
key-name lists, every property of the class, and its methods.  `none`
models `AttributeError`.  Attributes inherited from `object`
(dunder names such as `__class__`) are outside the model. -/
noncomputable def resolveAttr (pg : PGen ℚ) (key : List Char) : Option GetRes :=
  if key = "x".toList then some (GetRes.ok (AttrVal.qarr pg.x)) else
  if key = "px".toList then some (GetRes.ok (AttrVal.qarr pg.px)) else
  if key = "y".toList then some (GetRes.ok (AttrVal.qarr pg.y)) else
  if key = "py".toList then some (GetRes.ok (AttrVal.qarr pg.py)) else
  if key = "z".toList then some (GetRes.ok (AttrVal.qarr pg.z)) else
  if key = "pz".toList then some (GetRes.ok (AttrVal.qarr pg.pz)) else
  if key = "t".toList then some (GetRes.ok (AttrVal.qarr pg.t)) else
  if key = "status".toList then some (GetRes.ok (AttrVal.qarr pg.status)) else
  if key = "weight".toList then some (GetRes.ok (AttrVal.qarr pg.weight)) else
  if key = "species".toList then some (GetRes.ok (AttrVal.sval pg.species)) else
  if key = "n_particle".toList then
    some (GetRes.ok (AttrVal.qscalar (pg.nPart : ℚ))) else
  if key = "n_alive".toList then
    some (GetRes.ok (AttrVal.qscalar
      ((pg.status.filter (fun a => decide (a = 1))).length : ℚ))) else
  if key = "n_dead".toList then
    some (GetRes.ok (AttrVal.qscalar
      ((pg.nPart - (pg.status.filter (fun a => decide (a = 1))).length : ℕ) : ℚ))) else
  if key = "mass".toList then
    (match massOf pg.species with
     | some m => some (GetRes.ok (AttrVal.qscalar m))
     | none => some GetRes.otherErr) else
  if key = "species_charge".toList then
    (match chargeOf pg.species with
     | some q => some (GetRes.ok (AttrVal.qscalar q))
     | none => some GetRes.otherErr) else
  if key = "charge".toList then
    some (GetRes.ok (AttrVal.qscalar pg.weight.sum)) else
  if key = "p".toList then some (GetRes.ok (AttrVal.rarr (pArr pg.toR))) else
  if key = "energy".toList then
    some (withMass pg (fun m => GetRes.ok (AttrVal.rarr (energyArr pg.toR m)))) else
  if key = "kinetic_energy".toList then
    some (withMass pg (fun m =>
      GetRes.ok (AttrVal.rarr ((energyArr pg.toR m).map (fun e => e - m))))) else
  if key = "xp".toList then
    some (GetRes.ok (AttrVal.qarr (List.zipWith (· / ·) pg.px pg.pz))) else
  if key = "yp".toList then
    some (GetRes.ok (AttrVal.qarr (List.zipWith (· / ·) pg.py pg.pz))) else
  if key = "r".toList then
    some (GetRes.ok (AttrVal.rarr (List.zipWith
      (fun a b => Real.sqrt (a * a + b * b)) pg.toR.x pg.toR.y))) else
  if key = "theta".toList then
    some (GetRes.ok (AttrVal.rarr (thetaArr pg.toR))) else
  if key = "pr".toList then
    some (GetRes.ok (AttrVal.rarr (List.zipWith
      (fun a b => Real.sqrt (a * a + b * b)) pg.toR.px pg.toR.py))) else
  if key = "ptheta".toList then
    some (GetRes.ok (AttrVal.rarr (List.zipWith
      (fun pq th => -pq.1 * Real.sin th + pq.2 * Real.cos th)
      (List.zipWith Prod.mk pg.toR.px pg.toR.py) (thetaArr pg.toR)))) else
  if key = "gamma".toList then
    some (withMass pg (fun m =>
      GetRes.ok (AttrVal.rarr ((energyArr pg.toR m).map (fun e => e / m))))) else
  if key = "beta".toList then
    some (withMass pg (fun m =>
      GetRes.ok (AttrVal.rarr
        (List.zipWith (· / ·) (pArr pg.toR) (energyArr pg.toR m))))) else
  if key = "beta_x".toList then
    some (withMass pg (fun m => GetRes.ok (AttrVal.rarr (betaXArr pg.toR m)))) else
  if key = "beta_y".toList then
    some (withMass pg (fun m => GetRes.ok (AttrVal.rarr (betaYArr pg.toR m)))) else
  if key = "beta_z".toList then
    some (withMass pg (fun m => GetRes.ok (AttrVal.rarr (betaZArr pg.toR m)))) else
  if key = "x_bar".toList then
    some (withMass pg (fun m => GetRes.ok (AttrVal.rarr
      (normBarPos pg.toR.x (pg.toR.px.map (fun a => a / m)) pg.toR.weight)))) else
  if key = "px_bar".toList then
    some (withMass pg (fun m => GetRes.ok (AttrVal.rarr
      (normBarMom pg.toR.x (pg.toR.px.map (fun a => a / m)) pg.toR.weight)))) else
  if key = "Jx".toList then
    some (withMass pg (fun m => GetRes.ok (AttrVal.rarr
      (ampJ pg.toR.x (pg.toR.px.map (fun a => a / m)) pg.toR.weight)))) else
  if key = "y_bar".toList then
    some (withMass pg (fun m => GetRes.ok (AttrVal.rarr
      (normBarPos pg.toR.y (pg.toR.py.map (fun a => a / m)) pg.toR.weight)))) else
  if key = "py_bar".toList then
    some (withMass pg (fun m => GetRes.ok (AttrVal.rarr
      (normBarMom pg.toR.y (pg.toR.py.map (fun a => a / m)) pg.toR.weight)))) else
  if key = "Jy".toList then
    some (withMass pg (fun m => GetRes.ok (AttrVal.rarr
      (ampJ pg.toR.y (pg.toR.py.map (fun a => a / m)) pg.toR.weight)))) else
  if key = "norm_emit_x".toList then
    some (withMass pg (fun m => GetRes.ok (AttrVal.rscalar
      (normEmit2 pg.toR.x (pg.toR.px.map (fun a => a / m)) pg.toR.weight)))) else
  if key = "norm_emit_y".toList then
    some (withMass pg (fun m => GetRes.ok (AttrVal.rscalar
      (normEmit2 pg.toR.y (pg.toR.py.map (fun a => a / m)) pg.toR.weight)))) else
  if key = "norm_emit_4d".toList then
    some (withMass pg (fun m => GetRes.ok (AttrVal.rscalar (normEmit4 pg.toR m)))) else
  if key = "higher_order_energy_spread".toList then
    some (withMass pg (fun m => GetRes.ok (AttrVal.rscalar (hoeSpread pg.toR m)))) else
  if key = "average_current".toList then
    (match averageCurrent pg.toR with
     | some v => some (GetRes.ok (AttrVal.rscalar v))
     | none => some GetRes.otherErr) else
  if key = "_settable_array_keys".toList then
    some (GetRes.ok (AttrVal.strList
      ["x", "px", "y", "py", "z", "pz", "t", "status", "weight"])) else
  if key = "_settable_scalar_keys".toList then
    some (GetRes.ok (AttrVal.strList ["species"])) else
  if key = "_settable_keys".toList then
    some (GetRes.ok (AttrVal.strList
      ["x", "px", "y", "py", "z", "pz", "t", "status", "weight", "species"])) else
  if methodNames.any (fun s => key = s.toList) then
    some (GetRes.ok (AttrVal.method (String.mk key)))
  else none

/-- Python `key.startswith(p)` on character lists. -/
def startsWithL (p k : List Char) : Bool := decide (k.take p.length = p)

/-- Python `s.split('__')` on character lists: split on non-overlapping
occurrences of the double underscore, left to right. -/
def splitDunder : List Char → List (List Char)
  | [] => [[]]
  | '_' :: '_' :: rest => [] :: splitDunder rest
  | c :: rest =>
    match splitDunder rest with
    | [] => [[c]]
    | h :: tl => (c :: h) :: tl

/-- `self.avg(key)` applied to a looked-up value: scalars (including the
species string) are returned unchanged; arrays are weighted means. -/
noncomputable def statMean (pg : PGen ℚ) : AttrVal → GetRes
  | AttrVal.qarr l => GetRes.ok (AttrVal.qscalar (avgW l pg.weight))
  | AttrVal.rarr l => GetRes.ok (AttrVal.rscalar (avgW l pg.toR.weight))
  | AttrVal.qscalar q => GetRes.ok (AttrVal.qscalar q)
  | AttrVal.rscalar r => GetRes.ok (AttrVal.rscalar r)
  | AttrVal.sval (SpeciesVal.str s) => GetRes.ok (AttrVal.sval (SpeciesVal.str s))
  | _ => GetRes.otherErr

/-- `self.std(key)` applied to a looked-up value: 0 for scalars, weighted
standard deviation for arrays. -/
noncomputable def statStd (pg : PGen ℚ) : AttrVal → GetRes
  | AttrVal.qarr l => GetRes.ok (AttrVal.rscalar
      (stdWtd (l.map (fun a => (a : ℝ))) pg.toR.weight))
  | AttrVal.rarr l => GetRes.ok (AttrVal.rscalar (stdWtd l pg.toR.weight))
  | AttrVal.qscalar _ => GetRes.ok (AttrVal.qscalar 0)
  | AttrVal.rscalar _ => GetRes.ok (AttrVal.qscalar 0)
  | AttrVal.sval (SpeciesVal.str _) => GetRes.ok (AttrVal.qscalar 0)
  | _ => GetRes.otherErr

/-- `self.delta(key)`: value minus its weighted mean. -/
noncomputable def statDelta (pg : PGen ℚ) : AttrVal → GetRes
  | AttrVal.qarr l => GetRes.ok (AttrVal.qarr (l.map (fun a => a - avgW l pg.weight)))
  | AttrVal.rarr l =>
      GetRes.ok (AttrVal.rarr (l.map (fun a => a - avgW l pg.toR.weight)))
  | AttrVal.qscalar _ => GetRes.ok (AttrVal.qscalar 0)
  | AttrVal.rscalar _ => GetRes.ok (AttrVal.rscalar 0)
  | _ => GetRes.otherErr

/-- `np.min` of a looked-up value (numpy raises on empty arrays; string
reductions and method objects are error paths). -/
noncomputable def statMin (_pg : PGen ℚ) : AttrVal → GetRes
  | AttrVal.qarr [] => GetRes.otherErr
  | AttrVal.qarr (a :: l) => GetRes.ok (AttrVal.qscalar (minD (a :: l)))
  | AttrVal.rarr [] => GetRes.otherErr
  | AttrVal.rarr (a :: l) => GetRes.ok (AttrVal.rscalar (minD (a :: l)))
  | AttrVal.qscalar q => GetRes.ok (AttrVal.qscalar q)
  | AttrVal.rscalar r => GetRes.ok (AttrVal.rscalar r)
  | AttrVal.sval (SpeciesVal.str s) => GetRes.ok (AttrVal.sval (SpeciesVal.str s))
  | _ => GetRes.otherErr

/-- `np.max` of a looked-up value. -/
noncomputable def statMax (_pg : PGen ℚ) : AttrVal → GetRes
  | AttrVal.qarr [] => GetRes.otherErr
  | AttrVal.qarr (a :: l) => GetRes.ok (AttrVal.qscalar (maxD (a :: l)))
  | AttrVal.rarr [] => GetRes.otherErr
  | AttrVal.rarr (a :: l) => GetRes.ok (AttrVal.rscalar (maxD (a :: l)))
  | AttrVal.qscalar q => GetRes.ok (AttrVal.qscalar q)
  | AttrVal.rscalar r => GetRes.ok (AttrVal.rscalar r)
  | AttrVal.sval (SpeciesVal.str s) => GetRes.ok (AttrVal.sval (SpeciesVal.str s))
  | _ => GetRes.otherErr

/-- `np.ptp` of a looked-up value. -/
noncomputable def statPtp (_pg : PGen ℚ) : AttrVal → GetRes
  | AttrVal.qarr [] => GetRes.otherErr
  | AttrVal.qarr (a :: l) => GetRes.ok (AttrVal.qscalar (ptpL (a :: l)))
  | AttrVal.rarr [] => GetRes.otherErr
  | AttrVal.rarr (a :: l) => GetRes.ok (AttrVal.rscalar (ptpL (a :: l)))
  | AttrVal.qscalar _ => GetRes.ok (AttrVal.qscalar 0)
  | AttrVal.rscalar _ => GetRes.ok (AttrVal.qscalar 0)
  | _ => GetRes.otherErr

/-- Look up a sub-key and apply a statistics function to it, propagating
`AttributeError` and other raising paths as the code does. -/
noncomputable def statDispatch (pg : PGen ℚ) (sub : List Char)
    (f : PGen ℚ → AttrVal → GetRes) : GetRes :=
  match resolveAttr pg sub with
  | none => GetRes.attrErr
  | some (GetRes.ok v) => f pg v
  | some e => e

/-- The rows `np.cov` can stack: array-valued attributes, as reals. -/
def attrRowR : AttrVal → Option (List ℝ)
  | AttrVal.qarr l => some (l.map (fun a => (a : ℝ)))
  | AttrVal.rarr l => some l
  | _ => none

/-- The `cov_A__B` branch body: `self.cov(A, B)[0, 1]`, i.e. `getattr`
both sub-keys in order (an unknown sub-key raises `AttributeError` inside
`cov`) and take the off-diagonal entry of the weighted covariance: a
finite value, a nan (degenerate degrees of freedom), or a raise
(negative aweights, zero weight sum).  Non-array sub-key values make
`np.cov` raise as well (`otherErr`). -/
noncomputable def covPair (pg : PGen ℚ) (a b : List Char) : GetRes :=
  match resolveAttr pg a with
  | none => GetRes.attrErr
  | some (GetRes.ok va) =>
    (match resolveAttr pg b with
     | none => GetRes.attrErr
     | some (GetRes.ok vb) =>
       (match attrRowR va, attrRowR vb with
        | some ra, some rb =>
          match covW [ra, rb] pg.toR.weight 0 1 with
          | CovRes.val v => GetRes.ok (AttrVal.rscalar v)
          | CovRes.nan => GetRes.ok AttrVal.nanScalar
          | CovRes.err => GetRes.otherErr
        | _, _ => GetRes.otherErr)
     | some e => e)
  | some e => e

/-- Embedding of `ParticleGroup.__getitem__` for string keys, following
the code's dispatch order: the `cov_` branch splits the remainder on
`'__'` and asserts exactly two sub-keys; then the `delta_`, `sigma_`,
`mean_`, `min_`, `max_`, `ptp_` branches strip their prefixes and call the
statistics engine; otherwise the key is looked up with `getattr`. -/
noncomputable def getItemStr (pg : PGen ℚ) (key : List Char) : GetRes :=
  if startsWithL "cov_".toList key then
    let subs := splitDunder (key.drop 4)
    if subs.length = 2 then covPair pg (subs.getD 0 []) (subs.getD 1 [])
    else GetRes.assertErr
  else if startsWithL "delta_".toList key then
    statDispatch pg (key.drop 6) statDelta
  else if startsWithL "sigma_".toList key then
    statDispatch pg (key.drop 6) statStd
  else if startsWithL "mean_".toList key then
    statDispatch pg (key.drop 5) statMean
  else if startsWithL "min_".toList key then
    statDispatch pg (key.drop 4) statMin
  else if startsWithL "max_".toList key then
    statDispatch pg (key.drop 4) statMax
  else if startsWithL "ptp_".toList key then
    statDispatch pg (key.drop 4) statPtp
  else
    match resolveAttr pg key with
    | none => GetRes.attrErr
    | some r => r

/-- The subgroup a chunk index list produces: every canonical array
indexed by the chunk, and the species of the constructed group (the
parent's species for a non-empty chunk, the empty species array for an
empty one). -/
def subPG (pg : PGen ℚ) (ix : List ℕ) : PGen ℚ :=
  ⟨ix.map (pg.x.getD · 0), ix.map (pg.px.getD · 0), ix.map (pg.y.getD · 0),
   ix.map (pg.py.getD · 0), ix.map (pg.z.getD · 0), ix.map (pg.pz.getD · 0),
   ix.map (pg.t.getD · 0), ix.map (pg.status.getD · 0),
   ix.map (pg.weight.getD · 0),
   if ix.length = 0 then SpeciesVal.emptyArr else pg.species⟩

/-- A single-particle electron group (concrete example). -/
def pgOne : PGen ℚ :=
  ⟨[0], [0], [0], [0], [0], [1000000], [5], [1], [1],
   SpeciesVal.str "electron"⟩

/-- A real-valued single-particle electron group with `t = 5`. -/
def pgOneR : PGen ℝ :=
  ⟨[0], [0], [0], [0], [0], [1000000], [5], [1], [1],
   SpeciesVal.str "electron"⟩

/-- A two-particle electron group with uniform weight 2. -/
def pgTwo : PGen ℚ :=
  ⟨[3, 1], [0, 0], [0, 0], [0, 0], [2, 7], [1000000, 1000000], [0, 0],
   [1, 1], [2, 2], SpeciesVal.str "electron"⟩

/-- The empty constructed group: all arrays empty and the species left as
the empty numpy string array. -/
def pgEmpty : PGen ℚ :=
  ⟨[], [], [], [], [], [], [], [], [], SpeciesVal.emptyArr⟩

/-- An electron group with one negative macro-weight (the data model
stores one *signed* charge weight per macro-particle; the total here is
positive, 19/10).  `np.cov` refuses such weights — it exercises the
`ValueError("aweights cannot be negative")` path. -/
def pgNegW : PGen ℚ :=
  ⟨[0, 0, 1], [0, 0, 0], [0, 0, 0], [0, 0, 0], [0, 0, 0], [0, 0, 0],
   [0, 0, 0], [1, 1, 1], [1, 1, -(1/10)], SpeciesVal.str "electron"⟩

/-- A real-valued two-particle electron group whose `t` spread is 1. -/
def pgT01 : PGen ℝ :=
  ⟨[0, 0], [0, 0], [0, 0], [0, 0], [0, 0], [1, 1], [0, 1], [1, 1], [1, 1],
   SpeciesVal.str "electron"⟩

/- ------------------------------------------------------------------ -/
/- Helper lemmas                                                       -/
/- ------------------------------------------------------------------ -/

theorem bcast_of_length_ne_one {α : Type} (n : ℕ) (l : List α)
    (h : l.length ≠ 1) : bcast n l = l := by
  cases l with
  | nil => rfl
  | cons a tl =>
    cases tl with
    | nil => simp at h
    | cons b tl2 => rfl

/-- `mkPG` on data whose nine values all share one length `n` succeeds and
keeps the values unchanged; the species is the empty array when `n = 0`
and the given string otherwise. -/
theorem mkPG_uniform {α : Type} (d : RawData α) (n : ℕ)
    (h : ∀ l ∈ d.fields, l.length = n)
    (hsp : d.species = SpeciesVal.emptyArr → n = 0) :
    mkPG d = some ⟨d.x, d.px, d.y, d.py, d.z, d.pz, d.t, d.status, d.weight,
      if n = 0 then SpeciesVal.emptyArr else d.species⟩ := by
  have hx : d.x.length = n := h d.x (by simp [RawData.fields])
  have hpx : d.px.length = n := h d.px (by simp [RawData.fields])
  have hy : d.y.length = n := h d.y (by simp [RawData.fields])
  have hpy : d.py.length = n := h d.py (by simp [RawData.fields])
  have hz : d.z.length = n := h d.z (by simp [RawData.fields])
  have hpz : d.pz.length = n := h d.pz (by simp [RawData.fields])
  have ht : d.t.length = n := h d.t (by simp [RawData.fields])
  have hst : d.status.length = n := h d.status (by simp [RawData.fields])
  have hw : d.weight.length = n := h d.weight (by simp [RawData.fields])
  cases hspec : d.species with
  | emptyArr =>
    have hn0 : n = 0 := hsp hspec
    subst hn0
    have hx0 : d.x = [] := List.length_eq_zero.mp hx
    have hpx0 : d.px = [] := List.length_eq_zero.mp hpx
    have hy0 : d.y = [] := List.length_eq_zero.mp hy
    have hpy0 : d.py = [] := List.length_eq_zero.mp hpy
    have hz0 : d.z = [] := List.length_eq_zero.mp hz
    have hpz0 : d.pz = [] := List.length_eq_zero.mp hpz
    have ht0 : d.t = [] := List.length_eq_zero.mp ht
    have hst0 : d.status = [] := List.length_eq_zero.mp hst
    have hw0 : d.weight = [] := List.length_eq_zero.mp hw
    simp [mkPG, hspec, RawData.fields, hx0, hpx0, hy0, hpy0, hz0, hpz0,
      ht0, hst0, hw0, bcast]
  | str s =>
    by_cases hn1 : n = 1
    · subst hn1
      obtain ⟨ax, hax⟩ := List.length_eq_one.mp hx
      obtain ⟨apx, hapx⟩ := List.length_eq_one.mp hpx
      obtain ⟨ay, hay⟩ := List.length_eq_one.mp hy
      obtain ⟨apy, hapy⟩ := List.length_eq_one.mp hpy
      obtain ⟨az, haz⟩ := List.length_eq_one.mp hz
      obtain ⟨apz, hapz⟩ := List.length_eq_one.mp hpz
      obtain ⟨at', hat⟩ := List.length_eq_one.mp ht
      obtain ⟨ast, hast⟩ := List.length_eq_one.mp hst
      obtain ⟨aw, haw⟩ := List.length_eq_one.mp hw
      simp [mkPG, hspec, RawData.fields, hax, hapx, hay, hapy, haz, hapz,
        hat, hast, haw]
    · have hfilter :
          d.fields.filter (fun l => l.length ≠ 1) = d.fields := by
        apply List.filter_eq_self.mpr
        intro l hl
        simp [h l hl, hn1]
      simp only [mkPG, hspec]
      rw [hfilter]
      simp only [RawData.fields]
      simp [bcast_of_length_ne_one, hx, hpx, hy, hpy, hz, hpz, ht, hst, hw,
        hn1]

theorem map_getD_range {α : Type} (l : List α) (dflt : α) :
    (List.range l.length).map (fun i => l.getD i dflt) = l := by
  apply List.ext_getElem (by simp)
  intro i h1 h2
  simp [List.getD, List.getElem?_eq_getElem h2]

theorem splitSizes_length {α : Type} (szs : List ℕ) (l : List α) :
    (splitSizes szs l).length = szs.length := by
  induction szs generalizing l with
  | nil => rfl
  | cons s rest ih => simp [splitSizes, ih]

theorem flatten_splitSizes {α : Type} (szs : List ℕ) (l : List α) :
    (splitSizes szs l).flatten = l.take szs.sum := by
  induction szs generalizing l with
  | nil => simp [splitSizes]
  | cons s rest ih =>
    simp only [splitSizes, List.flatten_cons, ih, List.sum_cons]
    rw [List.take_add]

theorem splitSizes_map_length {α : Type} (szs : List ℕ) (l : List α)
    (h : szs.sum ≤ l.length) :
    (splitSizes szs l).map List.length = szs := by
  induction szs generalizing l with
  | nil => rfl
  | cons s rest ih =>
    simp only [List.sum_cons] at h
    have hs : s ≤ l.length := le_trans (Nat.le_add_right s rest.sum) h
    simp only [splitSizes, List.map_cons, List.length_take]
    rw [Nat.min_eq_left hs, ih (l.drop s) (by simp; omega)]

theorem mem_splitSizes_nil {α : Type} (szs : List ℕ) (ix : List α)
    (h : ix ∈ splitSizes szs []) : ix = [] := by
  induction szs with
  | nil => simp [splitSizes] at h
  | cons s rest ih =>
    simp only [splitSizes, List.take_nil, List.drop_nil, List.mem_cons] at h
    rcases h with h | h
    · exact h
    · exact ih h

theorem npSplitSizes_length (l k : ℕ) (hk : k ≠ 0) :
    (npSplitSizes l k).length = k := by
  have hmod : l % k < k := Nat.mod_lt _ (Nat.pos_of_ne_zero hk)
  simp [npSplitSizes]
  omega

theorem npSplitSizes_sum (l k : ℕ) (hk : k ≠ 0) :
    (npSplitSizes l k).sum = l := by
  have hmod : l % k < k := Nat.mod_lt _ (Nat.pos_of_ne_zero hk)
  have hdm : k * (l / k) + l % k = l := Nat.div_add_mod l k
  simp only [npSplitSizes, List.sum_append, List.sum_replicate, smul_eq_mul]
  have h1 : l % k * (l / k + 1) = l % k * (l / k) + l % k := by ring
  have h2 : (k - l % k) * (l / k) = k * (l / k) - l % k * (l / k) :=
    Nat.sub_mul k (l % k) (l / k)
  have h3 : l % k * (l / k) ≤ k * (l / k) :=
    Nat.mul_le_mul_right _ (le_of_lt hmod)
  omega

theorem npSplitSizes_pos (l k : ℕ) (hk : k ≠ 0) (hkl : k ≤ l) :
    ∀ s ∈ npSplitSizes l k, 0 < s := by
  intro s hs
  have hq : 1 ≤ l / k := (Nat.one_le_div_iff (Nat.pos_of_ne_zero hk)).mpr hkl
  simp only [npSplitSizes, List.mem_append, List.mem_replicate] at hs
  rcases hs with ⟨-, h⟩ | ⟨-, h⟩ <;> omega

theorem mapM_eq_some {α β : Type} (f : α → Option β) (g : α → β)
    (l : List α) (h : ∀ a ∈ l, f a = some (g a)) :
    l.mapM f = some (l.map g) := by
  induction l with
  | nil => rfl
  | cons a rest ih =>
    have ha := h a (List.mem_cons_self a rest)
    have hrest := ih (fun b hb => h b (List.mem_cons_of_mem a hb))
    rw [List.mapM_cons, ha, hrest]
    rfl

theorem argLe_trans (v : List ℚ) (a b c : ℕ) (hab : argLe v a b = true)
    (hbc : argLe v b c = true) : argLe v a c = true := by
  simp only [argLe, Bool.or_eq_true, Bool.and_eq_true, decide_eq_true_eq]
    at hab hbc ⊢
  rcases hab with h1 | ⟨h1, h1i⟩
  · rcases hbc with h2 | ⟨h2, -⟩
    · exact Or.inl (lt_trans h1 h2)
    · exact Or.inl (h2 ▸ h1)
  · rcases hbc with h2 | ⟨h2, h2i⟩
    · exact Or.inl (h1 ▸ h2)
    · exact Or.inr ⟨h1.trans h2, le_trans h1i h2i⟩

theorem argLe_total (v : List ℚ) (a b : ℕ) :
    (argLe v a b || argLe v b a) = true := by
  simp only [argLe, Bool.or_eq_true, Bool.and_eq_true, decide_eq_true_eq]
  rcases lt_trichotomy (v.getD a 0) (v.getD b 0) with h | h | h
  · exact Or.inl (Or.inl h)
  · rcases Nat.le_total a b with hi | hi
    · exact Or.inl (Or.inr ⟨h, hi⟩)
    · exact Or.inr (Or.inr ⟨h.symm, hi⟩)
  · exact Or.inr (Or.inl h)

theorem argsortL_perm (v : List ℚ) :
    (argsortL v).Perm (List.range v.length) :=
  List.mergeSort_perm _ _

theorem argsortL_length (v : List ℚ) : (argsortL v).length = v.length := by
  rw [(argsortL_perm v).length_eq, List.length_range]

theorem argsortL_sorted (v : List ℚ) :
    List.Pairwise (fun i j => v.getD i 0 ≤ v.getD j 0) (argsortL v) := by
  have h := List.sorted_mergeSort
    (fun a b c => argLe_trans v a b c)
    (fun a b => argLe_total v a b) (List.range v.length)
  refine h.imp ?_
  intro a b hab
  simp only [argLe, Bool.or_eq_true, Bool.and_eq_true, decide_eq_true_eq]
    at hab
  rcases hab with h1 | ⟨h1, -⟩
  · exact le_of_lt h1
  · exact le_of_eq h1

theorem WF_canArr_length (pg : PGen ℚ) (hwf : pg.WF) (key : CanKey) :
    (pg.canArr key).length = pg.nPart := by
  obtain ⟨h1, h2, h3, h4, h5, h6, h7, h8, -⟩ := hwf
  cases key <;> simp [PGen.canArr, PGen.nPart, h1, h2, h3, h4, h5, h6, h7, h8]

theorem WF_species_str {α : Type} (pg : PGen α) (hwf : pg.WF)
    (hn : pg.nPart ≠ 0) : ∃ s, pg.species = SpeciesVal.str s := by
  obtain ⟨-, -, -, -, -, -, -, -, h9⟩ := hwf
  rw [if_neg (show ¬ pg.x.length = 0 from hn)] at h9
  cases hsp : pg.species with
  | str s => exact ⟨s, rfl⟩
  | emptyArr => exact absurd hsp h9

theorem WF_nPart_ne_zero {α : Type} (pg : PGen α) (hwf : pg.WF)
    (hsp : pg.species ≠ SpeciesVal.emptyArr) : pg.nPart ≠ 0 := by
  obtain ⟨-, -, -, -, -, -, -, -, h9⟩ := hwf
  intro h0
  rw [if_pos (show pg.x.length = 0 from h0)] at h9
  exact hsp h9

theorem mkPG_subPG (pg : PGen ℚ) (ix : List ℕ)
    (hsp : pg.species = SpeciesVal.emptyArr → ix = []) :
    mkPG (subgroupData pg ix) = some (subPG pg ix) := by
  rw [mkPG_uniform (subgroupData pg ix) ix.length ?_ ?_]
  · rfl
  · intro l hl
    simp only [RawData.fields, subgroupData, List.mem_cons,
      List.not_mem_nil, or_false] at hl
    rcases hl with rfl | rfl | rfl | rfl | rfl | rfl | rfl | rfl | rfl <;>
      simp
  · intro h
    rw [hsp h]
    rfl

theorem splitParticles_eq (pg : PGen ℚ) (k : ℕ) (key : CanKey)
    (hwf : pg.WF) (hk : k ≠ 0) :
    splitParticles pg k key = some ((chunkIdxs pg k key).map (subPG pg)) := by
  unfold splitParticles
  rw [if_neg hk]
  apply mapM_eq_some
  intro ix hix
  apply mkPG_subPG
  intro hsp
  have hx0 : pg.nPart = 0 := by
    by_contra hne
    obtain ⟨s, hs⟩ := WF_species_str pg hwf hne
    rw [hs] at hsp
    exact SpeciesVal.noConfusion hsp
  have hv : (pg.canArr key).length = 0 := by
    rw [WF_canArr_length pg hwf key, hx0]
  have hargnil : argsortL (pg.canArr key) = [] := by
    apply List.length_eq_zero.mp
    rw [argsortL_length, hv]
  unfold chunkIdxs at hix
  rw [hargnil] at hix
  exact mem_splitSizes_nil _ _ hix

theorem WF_fields_length {α : Type} (pg : PGen α) (hwf : pg.WF) :
    ∀ l ∈ pg.fields, l.length = pg.nPart := by
  obtain ⟨h1, h2, h3, h4, h5, h6, h7, h8, -⟩ := hwf
  intro l hl
  simp only [PGen.fields, List.mem_cons, List.not_mem_nil, or_false] at hl
  rcases hl with rfl | rfl | rfl | rfl | rfl | rfl | rfl | rfl | rfl <;>
    first | rfl | assumption

/- ------------------------------------------------------------------ -/
/- Claim theorems                                                      -/
/- ------------------------------------------------------------------ -/

/-- C3 (amended): `full_data` classifies a value as scalar-like when it is
a Python scalar or a length-1 sequence; every other sequence — length 0
included — is an array.  With zero arrays every scalar-like value is
broadcast to a length-1 array; otherwise all arrays must share one common
length (the first array's), the scalar-like values are broadcast to that
length, and a length mismatch fails before any store is populated. -/
theorem full_data_partition (d : List (String × PyVal)) :
    ((∀ kv ∈ d, isScalarLike kv.2 = true) →
      fullData d = some (d.map (fun kv => (kv.1, [scalarVal kv.2])))) ∧
    (∀ a rest, d.filter (fun kv => ! isScalarLike kv.2) = a :: rest →
      ((∀ kv ∈ a :: rest, pyLen kv.2 = pyLen a.2) →
        fullData d = some ((a :: rest).map (fun kv => (kv.1, arrVal kv.2)) ++
          (d.filter (fun kv => isScalarLike kv.2)).map
            (fun kv => (kv.1, List.replicate (pyLen a.2) (scalarVal kv.2))))) ∧
      ((∃ kv ∈ rest, pyLen kv.2 ≠ pyLen a.2) → fullData d = none)) := by
  constructor
  · intro hall
    have h1 : d.filter (fun kv => ! isScalarLike kv.2) = [] := by
      rw [List.filter_eq_nil_iff]
      intro kv hkv
      simp [hall kv hkv]
    have h2 : d.filter (fun kv => isScalarLike kv.2) = d :=
      List.filter_eq_self.mpr (fun kv hkv => hall kv hkv)
    simp only [fullData, h1, h2]
  · intro a rest harr
    constructor
    · intro hlen
      have hcond : (a :: rest).all (fun kv => decide (pyLen kv.2 = pyLen a.2))
          = true := by
        rw [List.all_eq_true]
        intro kv hkv
        exact decide_eq_true (hlen kv hkv)
      simp only [fullData, harr]
      rw [if_pos hcond]
    · rintro ⟨kv, hkv, hne⟩
      have hcond : ¬ ((a :: rest).all
          (fun kv => decide (pyLen kv.2 = pyLen a.2)) = true) := by
        rw [List.all_eq_true]
        intro hforall
        exact hne (of_decide_eq_true
          (hforall kv (List.mem_cons_of_mem a hkv)))
      simp only [fullData, harr]
      rw [if_neg hcond]

/-- C3 witness: a mapping with one scalar and one length-2 array
broadcasts the scalar to length 2; evaluated concretely through the
theorem. -/
theorem full_data_partition_witness :
    isScalarLike (PyVal.arr [1, 2]) = false ∧
    fullData [("w", PyVal.scalar 3), ("x", PyVal.arr [1, 2])] =
      some [("x", [1, 2]), ("w", [3, 3])] := by
  constructor
  · decide
  · have h := (full_data_partition
      [("w", PyVal.scalar 3), ("x", PyVal.arr [1, 2])]).2
      ("x", PyVal.arr [1, 2]) [] (by decide)
    have h2 := h.1 (by decide)
    simpa using h2

/-- C3 counterexample: the claim's classification says a mapping with *no
sequence of length greater than 1* broadcasts every value to length 1,
but a length-0 sequence is treated as an array by the code: the result
keeps it at length 0 (and is not a single-particle ensemble). -/
theorem full_data_empty_seq_counterexample :
    fullData [("x", PyVal.arr [])] = some [("x", ([] : List ℚ))] ∧
    ([] : List ℚ).length ≠ 1 := by
  exact ⟨rfl, by decide⟩

/-- C10 (confirmed): indexing with a single in-range integer `i` yields a
new one-particle ensemble whose canonical values are the parent's values
at `i` and whose species is the parent's, the parent being untouched (the
embedding is functional; the code only reads from the parent). -/
theorem particle_parts_single (pg : PGen ℚ) (i : ℕ) (hwf : pg.WF)
    (hi : i < pg.nPart) :
    ∃ r, particlePartsIdx pg i = some r ∧ r.nPart = 1 ∧
      r.species = pg.species ∧
      r.x = [pg.x.getD i 0] ∧ r.px = [pg.px.getD i 0] ∧
      r.y = [pg.y.getD i 0] ∧ r.py = [pg.py.getD i 0] ∧
      r.z = [pg.z.getD i 0] ∧ r.pz = [pg.pz.getD i 0] ∧
      r.t = [pg.t.getD i 0] ∧ r.status = [pg.status.getD i 0] ∧
      r.weight = [pg.weight.getD i 0] := by
  have hne : pg.nPart ≠ 0 := by omega
  obtain ⟨s, hs⟩ := WF_species_str pg hwf hne
  have hcond : pg.fields.all (fun l => decide (i < l.length)) = true := by
    rw [List.all_eq_true]
    intro l hl
    apply decide_eq_true
    rw [WF_fields_length pg hwf l hl]
    exact hi
  unfold particlePartsIdx
  rw [if_pos hcond]
  rw [mkPG_uniform _ 1 ?_ ?_]
  · exact ⟨_, rfl, rfl, by simp [hs], rfl, rfl, rfl, rfl, rfl, rfl, rfl,
      rfl, rfl⟩
  · intro l hl
    simp only [RawData.fields, List.mem_cons, List.not_mem_nil, or_false]
      at hl
    rcases hl with rfl | rfl | rfl | rfl | rfl | rfl | rfl | rfl | rfl <;>
      rfl
  · intro h
    rw [hs] at h
    exact absurd h (by simp)

/-- C10 witness: indexing the concrete two-particle group at index 1. -/
theorem particle_parts_single_witness :
    pgTwo.WF ∧ 1 < pgTwo.nPart ∧
    (∃ r, particlePartsIdx pgTwo 1 = some r ∧ r.nPart = 1 ∧
      r.species = pgTwo.species ∧
      r.x = [pgTwo.x.getD 1 0] ∧ r.px = [pgTwo.px.getD 1 0] ∧
      r.y = [pgTwo.y.getD 1 0] ∧ r.py = [pgTwo.py.getD 1 0] ∧
      r.z = [pgTwo.z.getD 1 0] ∧ r.pz = [pgTwo.pz.getD 1 0] ∧
      r.t = [pgTwo.t.getD 1 0] ∧ r.status = [pgTwo.status.getD 1 0] ∧
      r.weight = [pgTwo.weight.getD 1 0]) :=
  ⟨by decide, by decide, particle_parts_single pgTwo 1 (by decide) (by decide)⟩

/-- C4 (amended): `resample(n)` fails exactly when `n` exceeds the current
count, or the weight array does not have exactly one distinct value (an
empty ensemble therefore always fails), or `n = 0` (the rescale `n_old/n`
raises `ZeroDivisionError`).  On success (for any valid random draw `ix`)
it returns a new `n`-particle ensemble of the same species whose arrays
are the draws and whose weight is uniformly `old_weight * n_old / n`; the
source is unchanged (the embedding is purely functional and the code
rescales a fancy-indexed copy). -/
theorem resample_spec (pg : PGen ℚ) (n : ℕ) (ix : List ℕ)
    (hwf : pg.WF) (hlen : ix.length = n) (_hnodup : ix.Nodup)
    (hrange : ∀ i ∈ ix, i < pg.nPart) :
    (resamplePG pg n ix = none ↔
      (pg.nPart < n ∨ pg.weight.dedup.length ≠ 1 ∨ n = 0)) ∧
    (∀ w0, pg.weight.dedup = [w0] → n ≤ pg.nPart → n ≠ 0 →
      ∃ r, resamplePG pg n ix = some r ∧ r.nPart = n ∧
        r.species = pg.species ∧
        r.weight = List.replicate n (w0 * ((pg.nPart : ℚ) / (n : ℚ))) ∧
        r.x = ix.map (pg.x.getD · 0) ∧ r.px = ix.map (pg.px.getD · 0) ∧
        r.y = ix.map (pg.y.getD · 0) ∧ r.py = ix.map (pg.py.getD · 0) ∧
        r.z = ix.map (pg.z.getD · 0) ∧ r.pz = ix.map (pg.pz.getD · 0) ∧
        r.t = ix.map (pg.t.getD · 0) ∧
        r.status = ix.map (pg.status.getD · 0)) := by
  have hwlen : pg.weight.length = pg.nPart :=
    WF_fields_length pg hwf pg.weight (by simp [PGen.fields])
  unfold resamplePG
  by_cases h1 : n ≤ pg.nPart
  · rw [if_neg (not_not_intro h1)]
    by_cases h2 : pg.weight.dedup.length = 1
    · rw [if_neg (not_not_intro h2)]
      by_cases h3 : n = 0
      · rw [if_pos h3]
        exact ⟨iff_of_true rfl (Or.inr (Or.inr h3)),
          fun w0 hw0 hle hne => absurd h3 hne⟩
      · rw [if_neg h3]
        have hwne : pg.weight ≠ [] := by
          intro h
          rw [h] at h2
          simp at h2
        have hnpne : pg.nPart ≠ 0 := by
          intro h0
          exact hwne (List.length_eq_zero.mp (by omega))
        obtain ⟨s, hs⟩ := WF_species_str pg hwf hnpne
        have hmk := mkPG_uniform
          (⟨ix.map (pg.x.getD · 0), ix.map (pg.px.getD · 0),
            ix.map (pg.y.getD · 0), ix.map (pg.py.getD · 0),
            ix.map (pg.z.getD · 0), ix.map (pg.pz.getD · 0),
            ix.map (pg.t.getD · 0), ix.map (pg.status.getD · 0),
            ix.map (fun i => pg.weight.getD i 0 * ((pg.nPart : ℚ) / (n : ℚ))),
            pg.species⟩ : RawData ℚ) n ?_ ?_
        · constructor
          · refine iff_of_false (by rw [hmk]; simp) ?_
            rintro (h | h | h)
            · omega
            · exact h h2
            · exact h3 h
          · intro w0 hw0 hle hne
            rw [hmk]
            refine ⟨_, rfl, by simp [PGen.nPart, hlen], by simp [h3], ?_,
              rfl, rfl, rfl, rfl, rfl, rfl, rfl, rfl⟩
            apply List.eq_replicate_iff.mpr
            constructor
            · simp [hlen]
            · intro b hb
              simp only [List.mem_map] at hb
              obtain ⟨i, hi, rfl⟩ := hb
              have hilt : i < pg.weight.length := by
                rw [hwlen]
                exact hrange i hi
              have hmem : pg.weight.getD i 0 ∈ pg.weight := by
                rw [List.getD_eq_getElem pg.weight 0 hilt]
                exact List.getElem_mem _
              have hmemd : pg.weight.getD i 0 ∈ pg.weight.dedup :=
                List.mem_dedup.mpr hmem
              rw [hw0] at hmemd
              simp only [List.mem_singleton] at hmemd
              rw [hmemd]
        · intro l hl
          simp only [RawData.fields, List.mem_cons, List.not_mem_nil,
            or_false] at hl
          rcases hl with rfl | rfl | rfl | rfl | rfl | rfl | rfl | rfl | rfl <;>
            simp [hlen]
        · intro h
          rw [hs] at h
          exact absurd h (by simp)
    · rw [if_pos h2]
      refine ⟨iff_of_true rfl (Or.inr (Or.inl h2)), ?_⟩
      intro w0 hw0 hle hne
      exact absurd (by simp [hw0] : pg.weight.dedup.length = 1) h2
  · rw [if_pos h1]
    exact ⟨iff_of_true rfl (Or.inl (by omega)),
      fun w0 hw0 hle hne => absurd hle h1⟩

/-- C4 witness: resampling the two-particle uniform-weight group down to
one particle with the concrete draw `[1]`. -/
theorem resample_spec_witness :
    pgTwo.weight.dedup = [2] ∧
    (∃ r, resamplePG pgTwo 1 [1] = some r ∧ r.nPart = 1 ∧
      r.species = pgTwo.species ∧
      r.weight = List.replicate 1 (2 * ((pgTwo.nPart : ℚ) / (1 : ℚ))) ∧
      r.x = [1].map (pgTwo.x.getD · 0) ∧ r.px = [1].map (pgTwo.px.getD · 0) ∧
      r.y = [1].map (pgTwo.y.getD · 0) ∧ r.py = [1].map (pgTwo.py.getD · 0) ∧
      r.z = [1].map (pgTwo.z.getD · 0) ∧ r.pz = [1].map (pgTwo.pz.getD · 0) ∧
      r.t = [1].map (pgTwo.t.getD · 0) ∧
      r.status = [1].map (pgTwo.status.getD · 0)) :=
  ⟨by decide,
   (resample_spec pgTwo 1 [1] (by decide) (by decide) (by decide)
     (by decide)).2 2 (by decide) (by decide) (by decide)⟩

/-- C4 counterexample: resampling the two-particle uniform-weight group to
`n = 0` satisfies both of the claim's stated success conditions (`n` does
not exceed the count; the weights have a single distinct value), yet the
code fails — `data['weight'] *= n_old/n` raises `ZeroDivisionError`. -/
theorem resample_zero_counterexample :
    resamplePG pgTwo 0 [] = none ∧ 0 ≤ pgTwo.nPart ∧
    pgTwo.weight.dedup.length = 1 := by decide

/-- C5 (amended): joining two or more well-formed ensembles fails exactly
when the operands' species are not all equal *strings* — in particular an
empty constructed ensemble, whose species is the empty array, always makes
the species check fail, even against another empty ensemble with the
identical species value.  On success the result's count and total charge
are the sums, its species is the shared string, and every canonical array
is the positional concatenation of the operands' arrays. -/
theorem join_groups_spec (pgs : List (PGen ℚ)) (h2 : 2 ≤ pgs.length)
    (hwf : ∀ pg ∈ pgs, pg.WF) :
    (∀ s, (∀ pg ∈ pgs, pg.species = SpeciesVal.str s) →
      ∃ r, joinPGs pgs = some r ∧
        r.species = SpeciesVal.str s ∧
        r.nPart = (pgs.map (fun p => p.nPart)).sum ∧
        r.weight.sum = (pgs.map (fun p => p.weight.sum)).sum ∧
        r.x = (pgs.map (·.x)).flatten ∧ r.px = (pgs.map (·.px)).flatten ∧
        r.y = (pgs.map (·.y)).flatten ∧ r.py = (pgs.map (·.py)).flatten ∧
        r.z = (pgs.map (·.z)).flatten ∧ r.pz = (pgs.map (·.pz)).flatten ∧
        r.t = (pgs.map (·.t)).flatten ∧
        r.status = (pgs.map (·.status)).flatten ∧
        r.weight = (pgs.map (·.weight)).flatten) ∧
    ((¬ ∃ s, ∀ pg ∈ pgs, pg.species = SpeciesVal.str s) →
      joinPGs pgs = none) := by
  obtain ⟨p0, rest, rfl⟩ : ∃ p0 rest, pgs = p0 :: rest := by
    cases pgs with
    | nil => simp at h2
    | cons p0 rest => exact ⟨p0, rest, rfl⟩
  constructor
  · intro s hsall
    have hp0 : p0.species = SpeciesVal.str s :=
      hsall p0 (List.mem_cons_self _ _)
    have hall : (p0 :: rest).all
        (fun p => decide (p.species = SpeciesVal.str s)) = true := by
      rw [List.all_eq_true]
      intro p hp
      exact decide_eq_true (hsall p hp)
    -- the common length of every concatenated array is the sum of counts
    have hflatlen : ∀ f : PGen ℚ → List ℚ,
        (∀ pg ∈ p0 :: rest, (f pg).length = pg.nPart) →
        (((p0 :: rest).map f).flatten).length =
          (((p0 :: rest)).map (fun p => p.nPart)).sum := by
      intro f hf
      rw [List.length_flatten, List.map_map]
      congr 1
      apply List.map_congr_left
      intro p hp
      exact hf p hp
    have hNpos : (((p0 :: rest)).map (fun p => p.nPart)).sum ≠ 0 := by
      have hp0n : p0.nPart ≠ 0 := by
        apply WF_nPart_ne_zero p0 (hwf p0 (List.mem_cons_self _ _))
        rw [hp0]
        simp
      simp only [List.map_cons, List.sum_cons]
      omega
    have hmk := mkPG_uniform
      (⟨((p0 :: rest).map (·.x)).flatten, ((p0 :: rest).map (·.px)).flatten,
        ((p0 :: rest).map (·.y)).flatten, ((p0 :: rest).map (·.py)).flatten,
        ((p0 :: rest).map (·.z)).flatten, ((p0 :: rest).map (·.pz)).flatten,
        ((p0 :: rest).map (·.t)).flatten,
        ((p0 :: rest).map (·.status)).flatten,
        ((p0 :: rest).map (·.weight)).flatten, SpeciesVal.str s⟩ :
        RawData ℚ) ((((p0 :: rest)).map (fun p => p.nPart)).sum) ?_ ?_
    · simp only [joinPGs, hp0]
      rw [if_pos hall, hmk]
      refine ⟨_, rfl, by rw [if_neg hNpos], ?_, ?_, rfl, rfl, rfl, rfl, rfl,
        rfl, rfl, rfl, rfl⟩
      · show (((p0 :: rest).map (·.x)).flatten).length = _
        apply hflatlen
        intro pg hp
        have h := WF_fields_length pg (hwf pg hp) pg.x (by simp [PGen.fields])
        exact h
      · show (((p0 :: rest).map (·.weight)).flatten).sum = _
        rw [List.sum_flatten, List.map_map]
        rfl
    · intro l hl
      simp only [RawData.fields, List.mem_cons, List.not_mem_nil, or_false]
        at hl
      rcases hl with rfl | rfl | rfl | rfl | rfl | rfl | rfl | rfl | rfl <;>
      · apply hflatlen
        intro pg hp
        exact WF_fields_length pg (hwf pg hp) _ (by simp [PGen.fields])
    · intro h
      exact absurd h (by simp)
  · intro hnone
    cases hp0 : p0.species with
    | emptyArr => simp only [joinPGs, hp0]
    | str s =>
      have hnall : ¬ ((p0 :: rest).all
          (fun p => decide (p.species = SpeciesVal.str s)) = true) := by
        rw [List.all_eq_true]
        intro hforall
        exact hnone ⟨s, fun p hp => of_decide_eq_true (hforall p hp)⟩
      simp only [joinPGs, hp0]
      rw [if_neg hnall]

/-- C5 witness: joining the concrete one- and two-particle electron
groups. -/
theorem join_groups_spec_witness :
    (∀ pg ∈ [pgOne, pgTwo], pg.WF) ∧
    (∃ r, joinPGs [pgOne, pgTwo] = some r ∧
      r.species = SpeciesVal.str "electron" ∧
      r.nPart = ([pgOne, pgTwo].map (fun p => p.nPart)).sum ∧
      r.weight.sum = ([pgOne, pgTwo].map (fun p => p.weight.sum)).sum ∧
      r.x = ([pgOne, pgTwo].map (·.x)).flatten ∧
      r.px = ([pgOne, pgTwo].map (·.px)).flatten ∧
      r.y = ([pgOne, pgTwo].map (·.y)).flatten ∧
      r.py = ([pgOne, pgTwo].map (·.py)).flatten ∧
      r.z = ([pgOne, pgTwo].map (·.z)).flatten ∧
      r.pz = ([pgOne, pgTwo].map (·.pz)).flatten ∧
      r.t = ([pgOne, pgTwo].map (·.t)).flatten ∧
      r.status = ([pgOne, pgTwo].map (·.status)).flatten ∧
      r.weight = ([pgOne, pgTwo].map (·.weight)).flatten) :=
  ⟨by decide,
   (join_groups_spec [pgOne, pgTwo] (by decide) (by decide)).1 "electron"
     (by decide)⟩

/-- C5 counterexample: two empty constructed ensembles carry the
*identical* species value (the empty species array), yet joining them
fails — `spe == species0` is falsy for numpy's empty string array, so the
claim's "fails exactly when the species are not all identical" does not
hold on the code. -/
theorem join_identical_empty_counterexample :
    pgEmpty.WF ∧ pgEmpty.species = pgEmpty.species ∧
    joinPGs [pgEmpty, pgEmpty] = none := by decide

/-- C1 (amended): for every nonzero target time t0, `drift_to_t(t0)`
overwrites `t` with exactly t0 at every index (for any prior t
distribution; the species must be in the mass table for `drift` to
evaluate `beta_x`).  A target of exactly 0 is falsy in Python and is
replaced by the mean time, so the claim's "including t0 = 0" fails; see
the counterexample. -/
theorem drift_to_t_target (pg : PGen ℝ) (t0 : ℝ)
    (hs : pg.species = SpeciesVal.str "electron") (h0 : t0 ≠ 0) :
    ∃ r, driftToT pg (some t0) = some r ∧
      r.t = List.replicate pg.nPart t0 := by
  have hm : massOf (SpeciesVal.str "electron") = some (51099895 / 100) := rfl
  simp only [driftToT, hs, hm, Option.map_some']
  refine ⟨_, rfl, ?_⟩
  show List.replicate pg.nPart (if t0 = 0 then avgW pg.t pg.weight else t0) =
    List.replicate pg.nPart t0
  rw [if_neg h0]

/-- C1 witness: drifting the concrete one-particle group to t0 = 2. -/
theorem drift_to_t_target_witness :
    pgOneR.species = SpeciesVal.str "electron" ∧ (2 : ℝ) ≠ 0 ∧
    (∃ r, driftToT pgOneR (some 2) = some r ∧
      r.t = List.replicate pgOneR.nPart 2) :=
  ⟨rfl, two_ne_zero, drift_to_t_target pgOneR 2 rfl two_ne_zero⟩

/-- C1 counterexample: the one-particle group has `t = [5]`; the claim
says `drift_to_t(0)` must produce `t = [0]`, but `if not t:` treats the
target 0 as unset and uses the mean time, leaving `t = [5]`. -/
theorem drift_to_t_zero_counterexample :
    (driftToT pgOneR (some 0)).map PGen.t = some [(5 : ℝ)] ∧
    [(5 : ℝ)] ≠ List.replicate pgOneR.nPart (0 : ℝ) := by
  constructor
  · have hm : massOf (SpeciesVal.str "electron") = some (51099895 / 100) :=
      rfl
    show (driftToT pgOneR (some 0)).map PGen.t = some [(5 : ℝ)]
    simp only [driftToT, pgOneR, hm, Option.map_some']
    norm_num [avgW, PGen.nPart]
  · show [(5 : ℝ)] ≠ List.replicate pgOneR.nPart (0 : ℝ)
    norm_num [pgOneR, PGen.nPart]

/-- C9 (confirmed): `average_current` is total charge divided by the
peak-to-peak spread of `t`; when that spread is exactly zero it is the
charge divided by `ptp(z) / (weighted-average beta_z × c)` (the fallback
needs the rest mass of the species). -/
theorem average_current_formula_spec (pg : PGen ℝ) :
    (ptpL pg.t ≠ 0 →
      averageCurrent pg = some (pg.weight.sum / ptpL pg.t)) ∧
    (ptpL pg.t = 0 → ∀ m, massOf pg.species = some m →
      averageCurrent pg = some (pg.weight.sum /
        (ptpL pg.z /
          (avgW (betaZArr pg ((m : ℚ) : ℝ)) pg.weight * (c_light : ℝ))))) := by
  constructor
  · intro h
    simp only [averageCurrent]
    rw [if_neg h]
  · intro h m hm
    simp only [averageCurrent]
    rw [if_pos h, hm]
    rfl

/-- C9 witness: the concrete two-particle group with `t` spread 1. -/
theorem average_current_formula_spec_witness :
    ptpL pgT01.t ≠ 0 ∧
    averageCurrent pgT01 = some (pgT01.weight.sum / ptpL pgT01.t) := by
  have hne : ptpL pgT01.t ≠ 0 := by simp [ptpL, maxD, minD, pgT01]
  exact ⟨hne, (average_current_formula_spec pgT01).1 hne⟩

theorem covW_symm {F : Type} [LinearOrderedField F] (rows : List (List F))
    (w : List F) (i j : ℕ) : covW rows w i j = covW rows w j i := by
  have h : List.zipWith (· * ·)
      ((rows.getD i []).map (fun a => a - avgW (rows.getD i []) w))
      ((rows.getD j []).map (fun a => a - avgW (rows.getD j []) w)) =
    List.zipWith (· * ·)
      ((rows.getD j []).map (fun a => a - avgW (rows.getD j []) w))
      ((rows.getD i []).map (fun a => a - avgW (rows.getD i []) w)) :=
    List.zipWith_comm_of_comm _ mul_comm _ _
  simp only [covW, h]

theorem sum_w_sq_nonneg {F : Type} [LinearOrderedField F] (w d : List F)
    (hw : ∀ a ∈ w, 0 ≤ a) :
    0 ≤ (List.zipWith (· * ·) w (List.zipWith (· * ·) d d)).sum := by
  induction w generalizing d with
  | nil => simp
  | cons a w ih =>
    cases d with
    | nil => simp
    | cons b d =>
      simp only [List.zipWith_cons_cons, List.sum_cons]
      have h1 : 0 ≤ a * (b * b) :=
        mul_nonneg (hw a (List.mem_cons_self _ _)) (mul_self_nonneg b)
      have h2 := ih d (fun x hx => hw x (List.mem_cons_of_mem _ hx))
      linarith

theorem covW_err_of_neg {F : Type} [LinearOrderedField F]
    (rows : List (List F)) (w : List F) (i j : ℕ)
    (hneg : ∃ a ∈ w, a < 0) : covW rows w i j = CovRes.err := by
  obtain ⟨a, ha, hlt⟩ := hneg
  have h1 : ¬ (∀ b ∈ w, 0 ≤ b) := fun hall => absurd (hall a ha) (not_le.mpr hlt)
  simp only [covW]
  rw [if_pos h1]

theorem covW_diag_nonneg {F : Type} [LinearOrderedField F]
    (rows : List (List F)) (w : List F) (i : ℕ) (v : F)
    (hv : covW rows w i i = CovRes.val v) : 0 ≤ v := by
  simp only [covW] at hv
  by_cases h1 : ¬ (∀ a ∈ w, 0 ≤ a)
  · rw [if_pos h1] at hv
    exact absurd hv (by simp)
  · rw [if_neg h1] at hv
    by_cases h2 : w.sum = 0
    · rw [if_pos h2] at hv
      exact absurd hv (by simp)
    · rw [if_neg h2] at hv
      by_cases h3 : w.sum - (w.map (fun a => a * a)).sum / w.sum ≤ 0
      · rw [if_pos h3] at hv
        exact absurd hv (by simp)
      · rw [if_neg h3] at hv
        cases hv
        apply div_nonneg
        · exact sum_w_sq_nonneg w _ (not_not.mp h1)
        · linarith [not_le.mp h3]

/-- C8 (amended): the entries of `cov(*keys)` are symmetric in `(i, j)`
(an error or nan outcome is the same on both sides, and a finite entry is
the same value), and every diagonal entry that is actually a number is
non-negative.  The claim's unconditional non-negativity fails only where
cov returns no number at all: numpy raises
`ValueError("aweights cannot be negative")` for any negative weight
(third conjunct), and for non-positive degrees of freedom — e.g. a
single-particle ensemble — it warns and every entry is nan (see the
counterexample). -/
theorem cov_symm_diag (pg : PGen ℚ) (keys : List CanKey) (i j : ℕ) :
    PGcovQ pg keys i j = PGcovQ pg keys j i ∧
    (∀ v, PGcovQ pg keys i i = CovRes.val v → 0 ≤ v) ∧
    ((∃ a ∈ pg.weight, a < 0) → PGcovQ pg keys i j = CovRes.err) :=
  ⟨covW_symm _ _ i j,
   fun v hv => covW_diag_nonneg _ _ i v hv,
   fun hneg => covW_err_of_neg _ _ i j hneg⟩

/-- C8 witness: on the concrete two-particle group with weights `[2, 2]`
the `(x, x)` entry of `cov('x', 'z')` is the number 2, which the theorem
shows non-negative; on the group with a negative weight the covariance is
the `ValueError` outcome. -/
theorem cov_symm_diag_witness :
    PGcovQ pgTwo [CanKey.x, CanKey.z] 0 0 = CovRes.val 2 ∧
    (0 : ℚ) ≤ 2 ∧
    (∃ a ∈ pgNegW.weight, a < 0) ∧
    PGcovQ pgNegW [CanKey.x, CanKey.z] 0 1 = CovRes.err := by
  have hval : PGcovQ pgTwo [CanKey.x, CanKey.z] 0 0 = CovRes.val 2 := by
    norm_num [PGcovQ, covW, avgW, PGen.canArr, pgTwo]
  have hneg : ∃ a ∈ pgNegW.weight, a < 0 :=
    ⟨-(1/10), by norm_num [pgNegW], by norm_num⟩
  exact ⟨hval, (cov_symm_diag pgTwo [CanKey.x, CanKey.z] 0 0).2.1 2 hval,
    hneg, (cov_symm_diag pgNegW [CanKey.x, CanKey.z] 0 1).2.2 hneg⟩

/-- C8 counterexample: on a single-particle ensemble (`weight = [1]`) the
normalisation factor `v1 - v2/v1` of `np.cov(..., aweights=w, ddof=1)` is
exactly 0, so numpy warns "Degrees of freedom <= 0" and every entry of
the returned matrix — diagonal included — is nan, which is not a
non-negative number; the claim's "every diagonal entry is non-negative"
therefore fails on the code. -/
theorem cov_single_particle_nan_counterexample :
    PGcovQ pgOne [CanKey.x, CanKey.px] 0 0 = CovRes.nan ∧ pgOne.WF := by
  constructor
  · norm_num [PGcovQ, covW, PGen.canArr, pgOne]
  · decide

/-- C6 (amended): `split(n_chunks, key)` returns exactly `n_chunks` new
ensembles, built from the argsorted index sequence of the named key split
into contiguous as-equal-as-possible chunks (`np.array_split` sizes);
every non-empty chunk carries the parent's species, but an empty chunk
(which appears whenever `n_chunks` exceeds the particle count) ends up
with the empty species array, not the parent's species string. -/
theorem split_chunks (pg : PGen ℚ) (k : ℕ) (key : CanKey)
    (hwf : pg.WF) (hk : 1 ≤ k) :
    ∃ chunks, splitParticles pg k key = some chunks ∧
      chunks = (chunkIdxs pg k key).map (subPG pg) ∧
      chunks.length = k ∧
      (chunkIdxs pg k key).map List.length = npSplitSizes pg.nPart k ∧
      (chunkIdxs pg k key).flatten = argsortL (pg.canArr key) ∧
      (argsortL (pg.canArr key)).Perm (List.range pg.nPart) ∧
      List.Sorted (· ≤ ·)
        ((argsortL (pg.canArr key)).map ((pg.canArr key).getD · 0)) ∧
      (∀ ix ∈ chunkIdxs pg k key,
        (ix ≠ [] → (subPG pg ix).species = pg.species) ∧
        (ix = [] → (subPG pg ix).species = SpeciesVal.emptyArr)) := by
  have hk0 : k ≠ 0 := by omega
  have hcan : (pg.canArr key).length = pg.nPart := WF_canArr_length pg hwf key
  have harg : (argsortL (pg.canArr key)).length = pg.nPart := by
    rw [argsortL_length, hcan]
  have hsum : (npSplitSizes (pg.canArr key).length k).sum =
      (argsortL (pg.canArr key)).length := by
    rw [npSplitSizes_sum _ _ hk0, harg, hcan]
  refine ⟨_, splitParticles_eq pg k key hwf hk0, rfl, ?_, ?_, ?_, ?_, ?_, ?_⟩
  · rw [List.length_map]
    unfold chunkIdxs
    rw [splitSizes_length, npSplitSizes_length _ _ hk0]
  · unfold chunkIdxs
    rw [splitSizes_map_length _ _ (le_of_eq hsum), hcan]
  · unfold chunkIdxs
    rw [flatten_splitSizes, hsum, List.take_length]
  · exact hcan ▸ argsortL_perm (pg.canArr key)
  · rw [List.Sorted, List.pairwise_map]
    exact argsortL_sorted (pg.canArr key)
  · intro ix hix
    constructor
    · intro hne
      have : ix.length ≠ 0 := fun h => hne (List.length_eq_zero.mp h)
      simp [subPG, this]
    · intro h
      subst h
      simp [subPG]

/-- C6 witness: splitting the concrete two-particle group into two chunks
by z. -/
theorem split_chunks_witness :
    pgTwo.WF ∧ 1 ≤ 2 ∧
    (∃ chunks, splitParticles pgTwo 2 CanKey.z = some chunks ∧
      chunks = (chunkIdxs pgTwo 2 CanKey.z).map (subPG pgTwo) ∧
      chunks.length = 2 ∧
      (chunkIdxs pgTwo 2 CanKey.z).map List.length =
        npSplitSizes pgTwo.nPart 2 ∧
      (chunkIdxs pgTwo 2 CanKey.z).flatten =
        argsortL (pgTwo.canArr CanKey.z) ∧
      (argsortL (pgTwo.canArr CanKey.z)).Perm (List.range pgTwo.nPart) ∧
      List.Sorted (· ≤ ·)
        ((argsortL (pgTwo.canArr CanKey.z)).map
          ((pgTwo.canArr CanKey.z).getD · 0)) ∧
      (∀ ix ∈ chunkIdxs pgTwo 2 CanKey.z,
        (ix ≠ [] → (subPG pgTwo ix).species = pgTwo.species) ∧
        (ix = [] → (subPG pgTwo ix).species = SpeciesVal.emptyArr))) :=
  ⟨by decide, by decide, split_chunks pgTwo 2 CanKey.z (by decide) (by decide)⟩

/-- C6 counterexample: splitting a one-particle group into two chunks
yields an empty second chunk whose `species` is the empty array — not the
parent's species value, contradicting the claim's "each carrying the
parent's species ... including when n_chunks exceeds the particle
count". -/
theorem split_empty_chunk_species_counterexample :
    (splitParticles pgOne 2 CanKey.z).map (fun chunks =>
        chunks.map (fun c => c.species)) =
      some [SpeciesVal.str "electron", SpeciesVal.emptyArr] ∧
    SpeciesVal.emptyArr ≠ pgOne.species := by
  have harg : argsortL (pgOne.canArr CanKey.z) = [0] := by
    unfold argsortL
    have h1 : (pgOne.canArr CanKey.z).length = 1 := rfl
    rw [h1, show List.range 1 = [0] from rfl, List.mergeSort_singleton]
  have hsp := splitParticles_eq pgOne 2 CanKey.z (by decide) (by decide)
  have hidx : chunkIdxs pgOne 2 CanKey.z = [[0], []] := by
    unfold chunkIdxs
    rw [harg]
    decide
  constructor
  · rw [hsp, hidx]
    decide
  · decide

theorem joinPGs_all_str (p0 : PGen ℚ) (rest : List (PGen ℚ)) (s : String)
    (hall : ∀ p ∈ p0 :: rest, p.species = SpeciesVal.str s) :
    joinPGs (p0 :: rest) =
      mkPG ⟨((p0 :: rest).map (·.x)).flatten,
            ((p0 :: rest).map (·.px)).flatten,
            ((p0 :: rest).map (·.y)).flatten,
            ((p0 :: rest).map (·.py)).flatten,
            ((p0 :: rest).map (·.z)).flatten,
            ((p0 :: rest).map (·.pz)).flatten,
            ((p0 :: rest).map (·.t)).flatten,
            ((p0 :: rest).map (·.status)).flatten,
            ((p0 :: rest).map (·.weight)).flatten,
            SpeciesVal.str s⟩ := by
  have hp0 : p0.species = SpeciesVal.str s := hall _ (List.mem_cons_self _ _)
  simp only [joinPGs, hp0]
  rw [if_pos]
  rw [List.all_eq_true]
  intro p hp
  exact decide_eq_true (hall p hp)

theorem subPG_field_flatten (pg : PGen ℚ) (L : List (List ℕ))
    (f : PGen ℚ → List ℚ) (g : ℕ → ℚ)
    (hfield : ∀ ix, f (subPG pg ix) = ix.map g) :
    ((L.map (subPG pg)).map f).flatten = L.flatten.map g := by
  rw [List.map_map]
  have h : f ∘ subPG pg = fun ix => ix.map g := funext (fun ix => hfield ix)
  rw [h, ← List.map_flatten]

/-- C2 (amended): for `1 ≤ k ≤ n_particle` (so that every chunk is
non-empty), joining the ensembles returned by `split(k, key)` succeeds and
yields an ensemble with exactly the parent's total charge whose canonical
rows are the parent's rows reindexed by the sorting permutation of the
named key — a permutation of the original, ordered ascending by the key.
(For `k > n_particle` the split produces empty chunks whose species is the
empty array, and the join's species check then fails; see the
counterexample.) -/
theorem split_join_roundtrip (pg : PGen ℚ) (k : ℕ) (key : CanKey)
    (hwf : pg.WF) (hk1 : 1 ≤ k) (hkn : k ≤ pg.nPart) :
    ∃ chunks r, splitParticles pg k key = some chunks ∧
      joinPGs chunks = some r ∧
      r.weight.sum = pg.weight.sum ∧
      (argsortL (pg.canArr key)).Perm (List.range pg.nPart) ∧
      List.Sorted (· ≤ ·)
        ((argsortL (pg.canArr key)).map ((pg.canArr key).getD · 0)) ∧
      r.x = (argsortL (pg.canArr key)).map (pg.x.getD · 0) ∧
      r.px = (argsortL (pg.canArr key)).map (pg.px.getD · 0) ∧
      r.y = (argsortL (pg.canArr key)).map (pg.y.getD · 0) ∧
      r.py = (argsortL (pg.canArr key)).map (pg.py.getD · 0) ∧
      r.z = (argsortL (pg.canArr key)).map (pg.z.getD · 0) ∧
      r.pz = (argsortL (pg.canArr key)).map (pg.pz.getD · 0) ∧
      r.t = (argsortL (pg.canArr key)).map (pg.t.getD · 0) ∧
      r.status = (argsortL (pg.canArr key)).map (pg.status.getD · 0) ∧
      r.weight = (argsortL (pg.canArr key)).map (pg.weight.getD · 0) ∧
      r.species = pg.species := by
  have hk0 : k ≠ 0 := by omega
  have hn0 : pg.nPart ≠ 0 := by omega
  obtain ⟨s, hs⟩ := WF_species_str pg hwf hn0
  have hcan : (pg.canArr key).length = pg.nPart := WF_canArr_length pg hwf key
  have harg : (argsortL (pg.canArr key)).length = pg.nPart := by
    rw [argsortL_length, hcan]
  have hsum : (npSplitSizes (pg.canArr key).length k).sum =
      (argsortL (pg.canArr key)).length := by
    rw [npSplitSizes_sum _ _ hk0, harg, hcan]
  have hflat : (chunkIdxs pg k key).flatten = argsortL (pg.canArr key) := by
    unfold chunkIdxs
    rw [flatten_splitSizes, hsum, List.take_length]
  have hlens : (chunkIdxs pg k key).map List.length =
      npSplitSizes (pg.canArr key).length k := by
    unfold chunkIdxs
    exact splitSizes_map_length _ _ (le_of_eq hsum)
  have hne : ∀ ix ∈ chunkIdxs pg k key, ix ≠ [] := by
    intro ix hix h
    have hmem : ix.length ∈ (chunkIdxs pg k key).map List.length :=
      List.mem_map_of_mem _ hix
    rw [hlens] at hmem
    have hpos := npSplitSizes_pos (pg.canArr key).length k hk0
      (by rw [hcan]; exact hkn) ix.length hmem
    rw [h] at hpos
    simp at hpos
  have hspecies : ∀ c ∈ (chunkIdxs pg k key).map (subPG pg),
      c.species = SpeciesVal.str s := by
    intro c hc
    obtain ⟨ix, hix, rfl⟩ := List.mem_map.mp hc
    have hlen0 : ix.length ≠ 0 :=
      fun h => hne ix hix (List.length_eq_zero.mp h)
    simp [subPG, hlen0, hs]
  have hl : (chunkIdxs pg k key).length = k := by
    unfold chunkIdxs
    rw [splitSizes_length, npSplitSizes_length _ _ hk0]
  obtain ⟨ix0, irest, hidx⟩ : ∃ a l, chunkIdxs pg k key = a :: l := by
    cases hcix : chunkIdxs pg k key with
    | nil =>
      rw [hcix] at hl
      simp at hl
      omega
    | cons a l => exact ⟨a, l, rfl⟩
  have hconsmap : (chunkIdxs pg k key).map (subPG pg) =
      subPG pg ix0 :: irest.map (subPG pg) := by
    rw [hidx, List.map_cons]
  have hjoin := joinPGs_all_str (subPG pg ix0) (irest.map (subPG pg)) s
    (by rw [← hconsmap]; exact hspecies)
  rw [← hconsmap] at hjoin
  -- the nine flattened arrays, as mappings of the sorted index list
  have hfx := subPG_field_flatten pg (chunkIdxs pg k key) (·.x)
    (pg.x.getD · 0) (fun ix => rfl)
  have hfpx := subPG_field_flatten pg (chunkIdxs pg k key) (·.px)
    (pg.px.getD · 0) (fun ix => rfl)
  have hfy := subPG_field_flatten pg (chunkIdxs pg k key) (·.y)
    (pg.y.getD · 0) (fun ix => rfl)
  have hfpy := subPG_field_flatten pg (chunkIdxs pg k key) (·.py)
    (pg.py.getD · 0) (fun ix => rfl)
  have hfz := subPG_field_flatten pg (chunkIdxs pg k key) (·.z)
    (pg.z.getD · 0) (fun ix => rfl)
  have hfpz := subPG_field_flatten pg (chunkIdxs pg k key) (·.pz)
    (pg.pz.getD · 0) (fun ix => rfl)
  have hft := subPG_field_flatten pg (chunkIdxs pg k key) (·.t)
    (pg.t.getD · 0) (fun ix => rfl)
  have hfst := subPG_field_flatten pg (chunkIdxs pg k key) (·.status)
    (pg.status.getD · 0) (fun ix => rfl)
  have hfw := subPG_field_flatten pg (chunkIdxs pg k key) (·.weight)
    (pg.weight.getD · 0) (fun ix => rfl)
  rw [hflat] at hfx hfpx hfy hfpy hfz hfpz hft hfst hfw
  rw [hfx, hfpx, hfy, hfpy, hfz, hfpz, hft, hfst, hfw] at hjoin
  have hmk := mkPG_uniform
    (⟨(argsortL (pg.canArr key)).map (pg.x.getD · 0),
      (argsortL (pg.canArr key)).map (pg.px.getD · 0),
      (argsortL (pg.canArr key)).map (pg.y.getD · 0),
      (argsortL (pg.canArr key)).map (pg.py.getD · 0),
      (argsortL (pg.canArr key)).map (pg.z.getD · 0),
      (argsortL (pg.canArr key)).map (pg.pz.getD · 0),
      (argsortL (pg.canArr key)).map (pg.t.getD · 0),
      (argsortL (pg.canArr key)).map (pg.status.getD · 0),
      (argsortL (pg.canArr key)).map (pg.weight.getD · 0),
      SpeciesVal.str s⟩ : RawData ℚ) pg.nPart ?_ ?_
  · rw [hmk] at hjoin
    have hwlen : pg.weight.length = pg.nPart :=
      WF_fields_length pg hwf pg.weight (by simp [PGen.fields])
    have hwsum : ((argsortL (pg.canArr key)).map (pg.weight.getD · 0)).sum =
        pg.weight.sum := by
      have hperm : ((argsortL (pg.canArr key)).map (pg.weight.getD · 0)).Perm
          ((List.range (pg.canArr key).length).map (pg.weight.getD · 0)) :=
        (argsortL_perm (pg.canArr key)).map _
      rw [hperm.sum_eq, hcan, ← hwlen, map_getD_range]
    refine ⟨_, _, splitParticles_eq pg k key hwf hk0, hjoin, hwsum,
      hcan ▸ argsortL_perm (pg.canArr key), ?_, rfl, rfl, rfl, rfl, rfl,
      rfl, rfl, rfl, rfl, by rw [if_neg hn0, hs]⟩
    rw [List.Sorted, List.pairwise_map]
    exact argsortL_sorted (pg.canArr key)
  · intro l hlmem
    simp only [RawData.fields, List.mem_cons, List.not_mem_nil, or_false]
      at hlmem
    rcases hlmem with rfl | rfl | rfl | rfl | rfl | rfl | rfl | rfl | rfl <;>
      simp [harg]
  · intro h
    exact absurd h (by simp)

/-- C2 witness: splitting the concrete two-particle group into two chunks
by z and rejoining. -/
theorem split_join_roundtrip_witness :
    pgTwo.WF ∧ 1 ≤ 2 ∧ 2 ≤ pgTwo.nPart ∧
    (∃ chunks r, splitParticles pgTwo 2 CanKey.z = some chunks ∧
      joinPGs chunks = some r ∧
      r.weight.sum = pgTwo.weight.sum ∧
      (argsortL (pgTwo.canArr CanKey.z)).Perm (List.range pgTwo.nPart) ∧
      List.Sorted (· ≤ ·)
        ((argsortL (pgTwo.canArr CanKey.z)).map
          ((pgTwo.canArr CanKey.z).getD · 0)) ∧
      r.x = (argsortL (pgTwo.canArr CanKey.z)).map (pgTwo.x.getD · 0) ∧
      r.px = (argsortL (pgTwo.canArr CanKey.z)).map (pgTwo.px.getD · 0) ∧
      r.y = (argsortL (pgTwo.canArr CanKey.z)).map (pgTwo.y.getD · 0) ∧
      r.py = (argsortL (pgTwo.canArr CanKey.z)).map (pgTwo.py.getD · 0) ∧
      r.z = (argsortL (pgTwo.canArr CanKey.z)).map (pgTwo.z.getD · 0) ∧
      r.pz = (argsortL (pgTwo.canArr CanKey.z)).map (pgTwo.pz.getD · 0) ∧
      r.t = (argsortL (pgTwo.canArr CanKey.z)).map (pgTwo.t.getD · 0) ∧
      r.status =
        (argsortL (pgTwo.canArr CanKey.z)).map (pgTwo.status.getD · 0) ∧
      r.weight =
        (argsortL (pgTwo.canArr CanKey.z)).map (pgTwo.weight.getD · 0) ∧
      r.species = pgTwo.species) :=
  ⟨by decide, by decide, by decide,
   split_join_roundtrip pgTwo 2 CanKey.z (by decide) (by decide) (by decide)⟩

/-- C2 counterexample: splitting a one-particle group into two chunks and
rejoining fails — the empty second chunk's species is the empty array, so
the join's species check raises instead of returning an ensemble, against
the claim's "for every chunk count k >= 1". -/
theorem split_join_empty_chunk_counterexample :
    (splitParticles pgOne 2 CanKey.z).bind joinPGs = none ∧
    pgOne.WF ∧ 1 ≤ 2 := by
  have harg : argsortL (pgOne.canArr CanKey.z) = [0] := by
    unfold argsortL
    rw [show (pgOne.canArr CanKey.z).length = 1 from rfl,
      show List.range 1 = [0] from rfl, List.mergeSort_singleton]
  have hsp := splitParticles_eq pgOne 2 CanKey.z (by decide) (by decide)
  have hidx : chunkIdxs pgOne 2 CanKey.z = [[0], []] := by
    unfold chunkIdxs
    rw [harg]
    decide
  refine ⟨?_, by decide, by decide⟩
  rw [hsp, hidx]
  decide

/-- C7 (amended): the `cov_` branch of string lookup splits the remainder
on the double underscore: exactly two sub-keys dispatch to
`cov(A, B)[0, 1]`, any other count raises the assertion; a key that starts
with no recognized prefix and resolves to *no attribute at all* raises
`AttributeError`.  (The claim's wording — unknown means "no canonical
field, derived property, or recognized prefix" — is too narrow: method
names such as `copy` are attributes too and return a bound method rather
than raising; see the counterexample.) -/
theorem getitem_cov_dispatch (pg : PGen ℚ) (key : List Char) :
    (startsWithL "cov_".toList key = true →
      ((splitDunder (key.drop 4)).length ≠ 2 →
        getItemStr pg key = GetRes.assertErr) ∧
      (∀ a b, splitDunder (key.drop 4) = [a, b] →
        getItemStr pg key = covPair pg a b)) ∧
    (startsWithL "cov_".toList key = false →
      startsWithL "delta_".toList key = false →
      startsWithL "sigma_".toList key = false →
      startsWithL "mean_".toList key = false →
      startsWithL "min_".toList key = false →
      startsWithL "max_".toList key = false →
      startsWithL "ptp_".toList key = false →
      resolveAttr pg key = none → getItemStr pg key = GetRes.attrErr) := by
  constructor
  · intro hcov
    have hcov' : startsWithL ['c', 'o', 'v', '_'] key = true := hcov
    constructor
    · intro hne
      simp [getItemStr, hcov', hne]
    · intro a b hab
      simp [getItemStr, hcov', hab]
  · intro h1 h2 h3 h4 h5 h6 h7 hres
    have h1' : startsWithL ['c', 'o', 'v', '_'] key = false := h1
    have h2' : startsWithL ['d', 'e', 'l', 't', 'a', '_'] key = false := h2
    have h3' : startsWithL ['s', 'i', 'g', 'm', 'a', '_'] key = false := h3
    have h4' : startsWithL ['m', 'e', 'a', 'n', '_'] key = false := h4
    have h5' : startsWithL ['m', 'i', 'n', '_'] key = false := h5
    have h6' : startsWithL ['m', 'a', 'x', '_'] key = false := h6
    have h7' : startsWithL ['p', 't', 'p', '_'] key = false := h7
    simp [getItemStr, h1', h2', h3', h4', h5', h6', h7', hres]

/-- C7 witness: concrete dispatches — a three-part covariance key raises
the assertion, a two-part key returns the covariance cross term, and an
unknown name raises `AttributeError`. -/
theorem getitem_cov_dispatch_witness :
    startsWithL "cov_".toList ("cov_x__y__z".toList) = true ∧
    (splitDunder (("cov_x__y__z".toList).drop 4)).length ≠ 2 ∧
    getItemStr pgTwo ("cov_x__y__z".toList) = GetRes.assertErr ∧
    splitDunder (("cov_x__t".toList).drop 4) = ["x".toList, "t".toList] ∧
    getItemStr pgTwo ("cov_x__t".toList) =
      covPair pgTwo "x".toList "t".toList ∧
    resolveAttr pgTwo ("quetzal".toList) = none ∧
    getItemStr pgTwo ("quetzal".toList) = GetRes.attrErr := by
  have h1 : startsWithL "cov_".toList ("cov_x__y__z".toList) = true := by
    decide
  have h2 : (splitDunder (("cov_x__y__z".toList).drop 4)).length ≠ 2 := by
    decide
  have h4 : splitDunder (("cov_x__t".toList).drop 4) =
      ["x".toList, "t".toList] := by decide
  have hres : resolveAttr pgTwo ("quetzal".toList) = none := by rfl
  exact ⟨h1, h2, ((getitem_cov_dispatch pgTwo _).1 h1).1 h2, h4,
    ((getitem_cov_dispatch pgTwo _).1 (by decide)).2 _ _ h4, hres,
    (getitem_cov_dispatch pgTwo _).2 (by decide) (by decide) (by decide)
      (by decide) (by decide) (by decide) (by decide) hres⟩

/-- C7 counterexample: the key `copy` matches no canonical field, derived
property, or recognized prefix, yet `P['copy']` does not raise — `getattr`
returns the bound method object. -/
theorem getitem_method_counterexample :
    getItemStr pgTwo ("copy".toList) = GetRes.ok (AttrVal.method "copy") ∧
    GetRes.ok (AttrVal.method "copy") ≠ GetRes.attrErr := by
  refine ⟨rfl, fun h => GetRes.noConfusion h⟩
